import Mathlib

/-!
# Verification of the page-classification pipeline

Shallow embedding of the core of `Budochka/page_classification_system`
(crawl frontier, per-URL lifecycle, validator, storage contract) together
with proofs and refutations of its specified properties.

Conventions:
* Python strings are embedded as Lean `String` / `List Char`.
* Python floats that carry classifier confidences are embedded as `ℚ`
  (the claims about them are order comparisons only).
* Python functions that can raise are embedded as `Option`/`Except`
  returning functions.
* External collaborators (HTTP responses, the HTML/XML parser, the LLM)
  are parameters of the model: the theorems quantify over them.
-/

namespace PageClassification

/-! ## Models: `models/classification_result.py` -/

/-- The fixed six-label taxonomy `ALLOWED_LABELS` from
`models/classification_result.py`. -/
def ALLOWED_LABELS : List String :=
  ["INVESTOR_BEGINNER", "INVESTOR_QUALIFIED", "ISSUER_BEGINNER",
   "ISSUER_ADVANCED", "PROFESSIONAL", "OTHER"]

/-- `ClassificationResult` (pydantic model): the strict JSON output of
`classify_llm_tool`.  `confidence` is a Python float constrained to
`[0,1]` by pydantic; it is embedded as `ℚ` because the code only ever
compares it. -/
structure ClassificationResult where
  labels : List String
  confidence : ℚ
  matched_rules : List String := []
  rationale : String := ""
  evidence : List String := []
  needs_review : Bool := false
  missing_signals : List String := []
deriving Repr, DecidableEq

/-- The `label` property of `ClassificationResult`: backward-compatibility
view returning the first label, or `"OTHER"` when `labels` is empty. -/
def ClassificationResult.label (r : ClassificationResult) : String :=
  match r.labels with
  | [] => "OTHER"
  | l :: _ => l

/-! ## `tools/validate_tool.py` -/

/-- `validate_tool(result, ruleset_path)` from `tools/validate_tool.py`.

The `ruleset_path` argument is embedded as the list of rule ids the
Python code scrapes from the ruleset file (`ruleset_rule_ids`).  Check 3
of the source ("Rule IDs exist") loops over `result.matched_rules` with a
body that is only `pass`, so it appends no error; it is embedded as
contributing nothing.  The Python error strings interpolate the offending
value; here the interpolated numeric value is omitted (the label value,
which check 1 interpolates, is kept).

Each of the four live checks appends at most one error to `errors`, in
order; the sequential `errors.append` calls of the source are written
here as one concatenation of the four (possibly empty) singleton lists,
which produces the same list.  Returns `(len(errors) == 0, errors)`. -/
def validate_tool (result : ClassificationResult)
    (ruleset_rule_ids : List String := []) : Bool × List String :=
  -- 1. Label validity
  let e1 := if result.label ∉ ALLOWED_LABELS
    then ["Invalid label: " ++ result.label] else []
  -- 2. Confidence in [0, 1]
  let e2 := if ¬ (0 ≤ result.confidence ∧ result.confidence ≤ 1)
    then ["Confidence must be in [0,1]"] else []
  -- 3. Rule IDs exist: the source loop body is `pass`, no error is appended
  let _ := ruleset_rule_ids
  -- 4. Non-OTHER without rules → needs_review
  let e4 := if result.label ≠ "OTHER" ∧ result.matched_rules = []
      ∧ result.needs_review = false
    then ["Non-OTHER classification without matched_rules must have needs_review=true"]
    else []
  -- 5. Confidence < 0.5 → needs_review
  let e5 := if result.confidence < 1/2 ∧ result.needs_review = false
    then ["Confidence < 0.5 must have needs_review=true"] else []
  let errors := e1 ++ e2 ++ e4 ++ e5
  (errors.length == 0, errors)

/-- `apply_validation_fixes(result)` from `tools/validate_tool.py`. -/
def apply_validation_fixes (result : ClassificationResult) :
    ClassificationResult :=
  let result := if result.label ≠ "OTHER" ∧ result.matched_rules = []
    then { result with needs_review := true } else result
  let result := if result.confidence < 1/2
    then { result with needs_review := true } else result
  result

/-! ## Claims C3 and C4: validator label checks -/

/-- A concrete result whose second label is outside the taxonomy. -/
def c3Result : ClassificationResult :=
  { labels := ["OTHER", "BOGUS"], confidence := 1 }

/-- C3 counterexample: `c3Result` has the non-taxonomy label `"BOGUS"` in
`labels`, yet `validate_tool` returns `ok = True` with no errors — the
label-validity rule does not apply to every element of the list. -/
theorem c3_counterexample :
    "BOGUS" ∈ c3Result.labels ∧ "BOGUS" ∉ ALLOWED_LABELS ∧
      validate_tool c3Result = (true, []) := by
  refine ⟨by simp [c3Result], by simp [ALLOWED_LABELS], ?_⟩
  norm_num [validate_tool, c3Result, ClassificationResult.label, ALLOWED_LABELS]

/-- C3 (amended): the label-validity check applies only to the derived
first label `result.label` (`labels[0]`, or `"OTHER"` when `labels` is
empty): whenever `result.label` is outside the taxonomy, `validate_tool`
returns `ok = False` with the corresponding error in its error list;
labels beyond the first are not inspected. -/
theorem c3_first_label_checked (r : ClassificationResult)
    (ids : List String) (h : r.label ∉ ALLOWED_LABELS) :
    (validate_tool r ids).1 = false ∧
      ("Invalid label: " ++ r.label) ∈ (validate_tool r ids).2 := by
  unfold validate_tool
  rw [if_pos h]
  refine ⟨?_, by simp⟩
  simp [List.length_append]

/-- Witness for `c3_first_label_checked` at a concrete input. -/
theorem c3_first_label_checked_witness :
    (validate_tool { labels := ["NONSENSE"], confidence := 1 } []).1 = false ∧
      ("Invalid label: " ++
          ClassificationResult.label { labels := ["NONSENSE"], confidence := 1 }) ∈
        (validate_tool { labels := ["NONSENSE"], confidence := 1 } []).2 :=
  c3_first_label_checked { labels := ["NONSENSE"], confidence := 1 } []
    (by decide)

/-- A concrete result combining `OTHER` with another taxonomy label. -/
def c4Result : ClassificationResult :=
  { labels := ["OTHER", "PROFESSIONAL"], confidence := 9/10 }

/-- C4 counterexample: `c4Result.labels` contains `OTHER` together with
`PROFESSIONAL`, yet `validate_tool` accepts it (`ok = True`) — the
Validator does accept such a labels set. -/
theorem c4_counterexample :
    "OTHER" ∈ c4Result.labels ∧ "PROFESSIONAL" ∈ c4Result.labels ∧
      (validate_tool c4Result).1 = true := by
  refine ⟨by simp [c4Result], by simp [c4Result], ?_⟩
  norm_num [validate_tool, c4Result, ClassificationResult.label, ALLOWED_LABELS]

/-- C4 (amended): `validate_tool` does not enforce OTHER-exclusivity: it
returns `ok = True` for any labels list that places `OTHER` first —
regardless of the other labels present — whenever its remaining checks
pass (confidence within `[0,1]` and at least `0.5`).  (OTHER-exclusivity
is instead enforced upstream by `classify_llm_tool`'s label coercion.) -/
theorem c4_other_alongside_accepted (extra : List String) (conf : ℚ)
    (rules : List String) (nr : Bool) (ids : List String)
    (h0 : 0 ≤ conf) (h1 : conf ≤ 1) (h2 : 1/2 ≤ conf) :
    (validate_tool
        { labels := "OTHER" :: extra, confidence := conf,
          matched_rules := rules, needs_review := nr } ids).1 = true := by
  have hlabel : ClassificationResult.label
      { labels := "OTHER" :: extra, confidence := conf,
        matched_rules := rules, needs_review := nr } = "OTHER" := rfl
  have hc : 0 ≤ conf ∧ conf ≤ 1 := ⟨h0, h1⟩
  have hn : ¬ conf < 1/2 := not_lt.mpr h2
  simp [validate_tool, hlabel, hc, hn]
  exact ⟨by simp [ALLOWED_LABELS], fun h => absurd h2 (by linarith)⟩

/-- Witness for `c4_other_alongside_accepted` at a concrete input. -/
theorem c4_other_alongside_accepted_witness :
    (validate_tool
        { labels := "OTHER" :: ["PROFESSIONAL"], confidence := 9/10,
          matched_rules := [], needs_review := false } []).1 = true :=
  c4_other_alongside_accepted ["PROFESSIONAL"] (9/10) [] false []
    (by norm_num) (by norm_num) (by norm_num)

/-! ## Models: `models/url_record.py` -/

/-- `ProcessingState` from `models/url_record.py`. -/
inductive ProcessingState where
  | DISCOVERED
  | FETCHED
  | RENDERED
  | EXTRACTED
  | CLASSIFIED
  | VALIDATED
  | STORED
  | FAILED
  | SKIPPED
deriving Repr, DecidableEq

/-- `TERMINAL_STATES` from `models/url_record.py`. -/
def TERMINAL_STATES : List ProcessingState :=
  [ProcessingState.STORED, ProcessingState.FAILED, ProcessingState.SKIPPED]

/-- The order of `ProcessingState` values as declared (used to state
monotonicity): `DISCOVERED < FETCHED < ... < VALIDATED < terminal`. -/
def ProcessingState.rank : ProcessingState → Nat
  | .DISCOVERED => 0
  | .FETCHED => 1
  | .RENDERED => 2
  | .EXTRACTED => 3
  | .CLASSIFIED => 4
  | .VALIDATED => 5
  | .STORED => 6
  | .FAILED => 6
  | .SKIPPED => 6

/-- `URLRecord` from `models/url_record.py`.  The `discovered_at`
timestamp is not modelled; `final_url`, `http_status` and `error` default
to `None` in the source and are never assigned by any modelled code, so
they are omitted. -/
structure URLRecord where
  url : String
  discovered_from : Option String := none
  depth : Nat := 0
  state : ProcessingState := ProcessingState.DISCOVERED
deriving Repr, DecidableEq

/-! ## `tools/fetch_tool.py` and the tenacity retry wrapper -/

/-- `FetchResult` from `tools/fetch_tool.py`. -/
structure FetchResult where
  final_url : String
  http_status : Nat
  content_type : String
  html : String
  error : Option String := none
deriving Repr, DecidableEq

/-- One HTTP GET as observed by `fetch_tool`: the transport either raises
an exception or delivers a response. -/
inductive AttemptOutcome where
  | raises (msg : String)
  | responds (final_url : String) (status : Nat) (content_type : String)
      (body : String)
deriving Repr, DecidableEq

/-- `fetch_tool(url, timeout)` from `tools/fetch_tool.py`: the entire GET
is wrapped in `try/except Exception`, so a transport exception is caught
and converted into a `FetchResult` carrying `error`; the function itself
never raises. -/
def fetch_tool (att : AttemptOutcome) (url : String) : FetchResult :=
  match att with
  | .responds f s ct b =>
      { final_url := f, http_status := s, content_type := ct, html := b,
        error := none }
  | .raises msg =>
      { final_url := url, http_status := 0, content_type := "", html := "",
        error := some msg }

/-- Python truthiness of the `error: str | None` field (`None` and the
empty string are falsy). -/
def errTruthy : Option String → Bool
  | none => false
  | some s => s ≠ ""

/-- tenacity's `@retry(stop=stop_after_attempt(n), reraise=True)` loop:
run the wrapped call; a *raised exception* from attempt `i` (0-based,
`i < n - 1`) triggers another attempt, the `n`-th exception is re-raised;
a normal return ends the loop.  Returns the outcome together with the
number of attempts performed.  `call i` is the body's outcome on attempt
`i`: `Except.error` when the body raises. -/
def tenacityRetry (call : Nat → Except String FetchResult) :
    Nat → Nat → Except String FetchResult × Nat
  | 0, i => (Except.error "RetryError", i)
  | 1, i => (call i, i + 1)
  | n + 2, i =>
      match call i with
      | Except.ok r => (Except.ok r, i + 1)
      | Except.error _ => tenacityRetry call (n + 1) (i + 1)

/-- `MCPAgent._fetch_with_retry(url)`: `fetch_tool(url, timeout=30)`
wrapped in `@retry(stop=stop_after_attempt(3), wait=wait_exponential(...),
reraise=True)`.  The body `fetch_tool` catches every exception itself and
returns normally, so the value handed to tenacity is always `Except.ok`.
`oracle i` is the transport outcome of the `i`-th GET. -/
def fetchWithRetry (oracle : Nat → AttemptOutcome) (url : String) :
    Except String FetchResult × Nat :=
  tenacityRetry (fun i => Except.ok (fetch_tool (oracle i) url)) 3 0

/-- Helper: a tenacity loop whose body always returns normally performs
exactly one attempt. -/
theorem tenacityRetry_ok_one (call : Nat → Except String FetchResult)
    (h : ∀ i, ∃ r, call i = Except.ok r) (n i : Nat) :
    (tenacityRetry call (n + 2) i).2 = i + 1 ∧
      (tenacityRetry call (n + 2) i).1 = call i := by
  obtain ⟨r, hr⟩ := h i
  simp [tenacityRetry, hr]

/-! ## `agent/mcp_agent.py`: the per-URL lifecycle -/

/-- The slice of `Config` consumed by `_process_url_with_html`:
`render_policy` (`config/loader.py: RenderPolicy`) plus the version
strings the agent stamps onto stored rows. -/
structure AgentConfig where
  force_render : Bool
  min_text_chars : Nat
  spa_markers : List String
  ruleset_rule_ids : List String
  ruleset_version : String
  model_version : String

/-- `RenderResult` from `tools/render_tool.py`. -/
structure RenderResult where
  html : String
  final_url : String
  error : Option String := none
deriving Repr, DecidableEq

/-- `PagePackage` restricted to the field `_process_url_with_html` reads
(`content_hash`); the rest of the extractor's output is not consumed by
the orchestrator. -/
structure PagePackage where
  url : String
  content_hash : Option String
deriving Repr, DecidableEq

/-- `StoredClassification` from `models/classification_result.py`
(`processed_at` timestamp not modelled). -/
structure StoredClassification where
  url : String
  final_url : String
  http_status : Nat
  labels : List String
  confidence : ℚ
  matched_rules : List String
  rationale : String
  evidence : List String
  needs_review : Bool
  ruleset_version : String
  model_version : String
  fetch_mode : String
  content_hash : Option String
deriving Repr, DecidableEq

/-- Python `needle in hay` on strings (substring test). -/
def strContains (hay needle : String) : Bool :=
  (List.range (hay.data.length + 1)).any
    (fun i => (hay.data.drop i).take needle.data.length == needle.data)

/-- The external collaborators invoked by `_process_url_with_html`:
`render_tool` (its own `try/except` means it returns a `RenderResult`,
never raises), `extract_tool` (pure per its contract) and
`classify_llm_tool` (catches LLM/parse failures and degrades, never
raises).  `storageOk` tells whether the storage append
(`storage_tool` / `storage_tool_sqlite`) raises for the given row; a
failing append persists nothing. -/
structure ProcEnv where
  render : String → RenderResult
  extract : String → String → String → Nat → String → String → PagePackage
  classify : PagePackage → ClassificationResult
  storageOk : StoredClassification → Bool

/-- The stages of `MCPAgent._process_url_with_html` before the Store step
(source lines 151–206): render escalation → extract → classify →
validate/fix → build the `StoredClassification` row. -/
def processRow (cfg : AgentConfig) (env : ProcEnv) (rec : URLRecord)
    (html final_url : String) (http_status : Nat) (content_type : String) :
    StoredClassification :=
  let fetch_mode := "http"
  -- Render policy: if sparse content or SPA markers, render
  let needs_render := cfg.force_render
    || decide (html.length < cfg.min_text_chars)
    || cfg.spa_markers.any (fun m => strContains html m)
  let st :=
    if needs_render then
      let rr := env.render final_url
      -- `if not render_result.error and render_result.html:`
      if errTruthy rr.error = false ∧ rr.html ≠ "" then
        (rr.html, rr.final_url, "render")
      else (html, final_url, fetch_mode)
    else (html, final_url, fetch_mode)
  let html := st.1
  let final_url := st.2.1
  let fetch_mode := st.2.2
  -- Extract
  let page_package := env.extract rec.url html final_url http_status
    fetch_mode content_type
  -- Classify
  let classification := env.classify page_package
  -- Validate
  let vr := validate_tool classification cfg.ruleset_rule_ids
  let classification := if vr.1 = false
    then apply_validation_fixes classification else classification
  -- Build stored result
  { url := rec.url, final_url := final_url, http_status := http_status,
    labels := classification.labels,
    confidence := classification.confidence,
    matched_rules := classification.matched_rules,
    rationale := classification.rationale,
    evidence := classification.evidence,
    needs_review := classification.needs_review,
    ruleset_version := cfg.ruleset_version,
    model_version := cfg.model_version,
    fetch_mode := fetch_mode,
    content_hash := page_package.content_hash }

/-- `MCPAgent._process_url_with_html`: the stages of `processRow`
followed by the Store step.  A storage exception is logged and then
re-raised (`raise` at the end of the `except` block, source line 221),
embedded as `Except.error`; every other stage returns normally per the
collaborators' contracts (`fetch_tool`, `render_tool` and
`classify_llm_tool` each catch their own exceptions). -/
def processUrlWithHtml (cfg : AgentConfig) (env : ProcEnv) (rec : URLRecord)
    (html final_url : String) (http_status : Nat) (content_type : String) :
    Except String StoredClassification :=
  let stored := processRow cfg env rec html final_url http_status content_type
  if env.storageOk stored then Except.ok stored else Except.error "storage"

/-- `MCPAgent._process_url(rec)`: terminal-state short-circuit, fetch with
retry, SKIPPED/FAILED triage, then `_process_url_with_html`.  The pair's
second component is the record after processing: the source never assigns
`rec.state` (or any other field of `rec`), so the record is returned
unchanged. -/
def processUrl (cfg : AgentConfig) (env : ProcEnv)
    (oracle : Nat → AttemptOutcome) (rec : URLRecord) :
    Except String (Option StoredClassification) × URLRecord :=
  if rec.state ∈ TERMINAL_STATES then (Except.ok none, rec)
  else
    match (fetchWithRetry oracle rec.url).1 with
    | Except.error e => (Except.error e, rec)
    | Except.ok fr =>
      if errTruthy fr.error = true ∨ fr.http_status ≠ 200 then
        if fr.http_status ∈ [404, 410, 403] then
          (Except.ok none, rec)  -- SKIPPED
        else
          (Except.ok none, rec)  -- FAILED
      else
        match processUrlWithHtml cfg env rec fr.html fr.final_url
            fr.http_status fr.content_type with
        | Except.ok s => (Except.ok (some s), rec)
        | Except.error e => (Except.error e, rec)

/-! ## Claim C2: storage failures propagate, other stage failures do not -/

/-- C2: a persistence failure is the only thing `_process_url_with_html`
raises past its boundary.  For every configuration, collaborator
behaviour (including failing renders and degraded classifications) and
input page, the outcome of `_process_url_with_html` is determined by
whether the storage append raises on the row it built: if storage fails
the exception propagates to the caller (`Except.error`), and if storage
succeeds the call returns the stored row — fetch, render, classification
and validation failures never surface as exceptions because those
collaborators return error-carrying values instead of raising. -/
theorem c2_storage_error_not_swallowed (cfg : AgentConfig) (env : ProcEnv)
    (rec : URLRecord) (html final_url : String) (http_status : Nat)
    (content_type : String) :
    (env.storageOk
        (processRow cfg env rec html final_url http_status content_type)
          = false →
      processUrlWithHtml cfg env rec html final_url http_status content_type
        = Except.error "storage") ∧
    (env.storageOk
        (processRow cfg env rec html final_url http_status content_type)
          = true →
      processUrlWithHtml cfg env rec html final_url http_status content_type
        = Except.ok
            (processRow cfg env rec html final_url http_status
              content_type)) := by
  constructor <;> intro h <;> simp [processUrlWithHtml, h]

/-- A collaborator environment for concrete witnesses: the renderer is
unavailable (reported as an error, per `render_tool`'s contract), the
classifier degrades to `OTHER`, storage succeeds. -/
def witnessEnv : ProcEnv :=
  { render := fun u =>
      { html := "", final_url := u,
        error := some "playwright not installed" },
    extract := fun u _ _ _ _ _ => { url := u, content_hash := none },
    classify := fun _ => { labels := ["OTHER"], confidence := 1 },
    storageOk := fun _ => true }

/-- Same environment with a failing storage append. -/
def witnessEnvBadStore : ProcEnv :=
  { witnessEnv with storageOk := fun _ => false }

/-- A minimal agent configuration for concrete witnesses. -/
def witnessCfg : AgentConfig :=
  { force_render := false, min_text_chars := 0, spa_markers := [],
    ruleset_rule_ids := [], ruleset_version := "1", model_version := "m" }

/-- Witness for `c2_storage_error_not_swallowed`: at a concrete page, a
failing append yields `Except.error "storage"`. -/
theorem c2_storage_error_not_swallowed_witness :
    processUrlWithHtml witnessCfg witnessEnvBadStore
        { url := "http://x.test/" } "<html></html>" "http://x.test/" 200
        "text/html" = Except.error "storage" :=
  (c2_storage_error_not_swallowed witnessCfg witnessEnvBadStore
      { url := "http://x.test/" } "<html></html>" "http://x.test/" 200
      "text/html").1 rfl

/-! ## Claim C5: the fetch retry policy -/

/-- A transport layer whose every GET raises a transient error. -/
def c5Oracle : Nat → AttemptOutcome :=
  fun _ => AttemptOutcome.raises "ConnectTimeout"

/-- C5: `_fetch_with_retry` never retries.  `fetch_tool` catches every
exception and returns an error-carrying `FetchResult`, so tenacity's
`@retry` (which only retries on raised exceptions) always sees a normal
return: every call performs exactly one fetch attempt.  In particular a
transient transport error is not fetched more than once — it is
converted on the first attempt into an error result, which
`_process_url` then turns into a terminal FAILED (`None`) outcome. -/
theorem c5_transport_error_not_retried :
    (∀ (oracle : Nat → AttemptOutcome) (url : String),
      (fetchWithRetry oracle url).2 = 1) ∧
    fetchWithRetry c5Oracle "http://x.test/a" =
      (Except.ok
        { final_url := "http://x.test/a", http_status := 0,
          content_type := "", html := "", error := some "ConnectTimeout" },
        1) ∧
    (processUrl witnessCfg witnessEnv c5Oracle
        { url := "http://x.test/a" }).1 = Except.ok none := by
  refine ⟨fun oracle url => ?_, rfl, rfl⟩
  exact (tenacityRetry_ok_one _ (fun i => ⟨_, rfl⟩) 1 0).1

/-! ## Claim C6: the record's state field -/

/-- The transport succeeds with an HTML page. -/
def c6Oracle : Nat → AttemptOutcome :=
  fun _ => AttemptOutcome.responds "http://x.test/" 200 "text/html"
    "<html>hello</html>"

/-- C6: `rec.state` is never written.  `_process_url` (and everything it
calls) returns the record unchanged — the agent never assigns `rec.state`
— so even a record that is fetched, classified and durably stored ends
processing still in `DISCOVERED`, which is not a terminal state.  (The
observed state sequence is trivially constant, hence non-decreasing, but
processing never ends in `STORED`/`FAILED`/`SKIPPED`.) -/
theorem c6_state_never_reaches_terminal :
    (∀ (cfg : AgentConfig) (env : ProcEnv) (oracle : Nat → AttemptOutcome)
      (rec : URLRecord), (processUrl cfg env oracle rec).2 = rec) ∧
    (∃ row, (processUrl witnessCfg witnessEnv c6Oracle
        { url := "http://x.test/" }).1 = Except.ok (some row)) ∧
    (processUrl witnessCfg witnessEnv c6Oracle
        { url := "http://x.test/" }).2.state = ProcessingState.DISCOVERED ∧
    ProcessingState.DISCOVERED ∉ TERMINAL_STATES := by
  refine ⟨fun cfg env oracle rec => ?_, ?_, ?_, by decide⟩
  · unfold processUrl
    split
    · rfl
    · split
      · rfl
      · split
        · split <;> rfl
        · split <;> rfl
  · refine ⟨processRow witnessCfg witnessEnv { url := "http://x.test/" }
      "<html>hello</html>" "http://x.test/" 200 "text/html", ?_⟩
    simp [processUrl, fetchWithRetry, tenacityRetry, fetch_tool, c6Oracle,
      errTruthy, processUrlWithHtml, witnessEnv, TERMINAL_STATES]
  · unfold processUrl
    split
    · rfl
    · split
      · rfl
      · split
        · split <;> rfl
        · split <;> rfl

/-! ## `tools/crawl_tool.py`: the frontier

The crawl loops are embedded with explicit fuel (`none` = fuel exhausted);
the sitemap-termination claim is settled by exhibiting sufficient fuel.
URL normalization (`normalize_url`, together with `urljoin` for relative
links) and `urlparse(...).netloc` / `.scheme` are collaborator functions
of the model, quantified over in the theorems: none of the frontier's
claimed properties depend on their values.  The HTML/XML parsing done by
BeautifulSoup is likewise abstracted: a fetched response carries the
`<sitemap><loc>` texts, the plain `<loc>` texts and the anchor `href`s
that the parser would produce. -/

/-- `CrawlLimits` from `config/loader.py` (pydantic validates
`max_depth ≥ 0`, `max_pages ≥ 1`, hence `Nat`). -/
structure CrawlLimits where
  max_depth : Nat
  max_pages : Nat

/-- One response of the sitemap-phase `client.get(sitemap_url)`:
the GET may raise (`raisesError`), else delivers a status, whether
`"xml"` occurs in the content-type, and the parsed `loc` texts. -/
structure SitemapPage where
  raisesError : Bool := false
  status : Nat := 200
  isXml : Bool := true
  sitemapLocs : List String := []
  urlLocs : List String := []

/-- One response of the link-crawl-phase `client.get(url)`. `htmlish` is
`"html" in content_type.lower()` (the callback guard); `hrefs` are the
`a[href]` attribute values in document order. -/
structure CrawlPage where
  raisesError : Bool := false
  status : Nat := 200
  htmlish : Bool := true
  hrefs : List String := []

/-- Collaborators of `crawl_tool`. `norm u` is
`normalize_url(u, rules=rules)`; `normLink href base` is
`normalize_url(urljoin(base, href), base, rules=rules)`; `netlocOf` and
`schemeOf` are `urlparse(x).netloc` / `.scheme`; `smap` and `page` are the
HTTP GETs of the two phases. -/
structure CrawlEnv where
  norm : String → String
  normLink : String → String → String
  netlocOf : String → String
  schemeOf : String → String
  smap : String → SitemapPage
  page : String → CrawlPage

/-- Python whitespace for `str.strip()` (the ASCII whitespace class;
the crawl only strips `href` attribute values). -/
def isPyWs (c : Char) : Bool :=
  c = ' ' ∨ c = '\t' ∨ c = '\n' ∨ c = '\r' ∨
    c = Char.ofNat 11 ∨ c = Char.ofNat 12

/-- Python `href.strip()`. -/
def pyStrip (s : String) : String :=
  ⟨((s.data.dropWhile isPyWs).reverse.dropWhile isPyWs).reverse⟩

/-- Python `s.startswith(pre)`. -/
def pyStartsWith (s pre : String) : Bool :=
  pre.data.isPrefixOf s.data

/-- The domain filter `if allowed and urlparse(u).netloc not in allowed`
(`allowed` is embedded as a list; the empty list is Python-falsy). -/
def domainBlocked (allowed : List String) (netloc : String) : Bool :=
  allowed ≠ [] ∧ netloc ∉ allowed

/-- The inner `for loc in soup.find_all("loc")` loop of a regular sitemap
(source lines 108–125): normalize, dedup against `seen`, domain filter,
page cap (`break`), then record at depth 0 sourced from the sitemap. -/
def addLocs (env : CrawlEnv) (allowed : List String) (maxPages : Nat)
    (smUrl : String) :
    List String → List String → List URLRecord →
    List String × List URLRecord
  | [], seen, records => (seen, records)
  | u :: us, seen, records =>
    let nrm := env.norm u
    if nrm ∈ seen then addLocs env allowed maxPages smUrl us seen records
    else if domainBlocked allowed (env.netlocOf nrm) then
      addLocs env allowed maxPages smUrl us seen records
    else if maxPages ≤ records.length then (seen, records)
    else addLocs env allowed maxPages smUrl us (nrm :: seen)
      (records ++ [{ url := nrm, discovered_from := some smUrl, depth := 0 }])

/-- The sitemap-processing `while` loop of `crawl_tool` (source lines
81–127): pop the next sitemap URL; skip it when already processed;
otherwise fetch it (errors swallowed), follow a sitemap index by
enqueueing its not-yet-processed references, or harvest a leaf sitemap's
URLs.  Returns the final `(seen, records)`; `none` when the fuel runs
out. -/
def sitemapLoop (env : CrawlEnv) (allowed : List String)
    (limits : CrawlLimits) :
    Nat → List String → List String → List String → List URLRecord →
    Option (List String × List URLRecord)
  | 0, _, _, _, _ => none
  | _ + 1, [], _, seen, records => some (seen, records)
  | fuel + 1, sm :: rest, processed, seen, records =>
    if limits.max_pages ≤ records.length then some (seen, records)
    else if sm ∈ processed then
      sitemapLoop env allowed limits fuel rest processed seen records
    else
      let processed := sm :: processed
      let pg := env.smap sm
      if pg.raisesError then
        sitemapLoop env allowed limits fuel rest processed seen records
      else if pg.status ≠ 200 ∨ pg.isXml = false then
        sitemapLoop env allowed limits fuel rest processed seen records
      else if pg.sitemapLocs ≠ [] then
        sitemapLoop env allowed limits fuel
          (rest ++ pg.sitemapLocs.filter (fun r => r ∉ processed))
          processed seen records
      else
        let sr := addLocs env allowed limits.max_pages sm pg.urlLocs seen
          records
        sitemapLoop env allowed limits fuel rest processed sr.1 sr.2

/-- State threaded through `MCPAgent.run`'s `process_during_crawl`
closure: the `processed_urls` set, the URLs of the rows appended to the
Store (in append order), and the multiset of processing attempts (used to
index the per-attempt outcome oracle). -/
structure ProcState where
  processed : List String := []
  storedUrls : List String := []
  attempts : List String := []
deriving Repr, DecidableEq

/-- `process_during_crawl(url, html, ...)` from `MCPAgent.run` (source
lines 63–91): skip when already processed; otherwise run
`_process_url_with_html`, whose outcome for this URL's `n`-th crawl-time
attempt is `procOracle url n` — `true` means a row for `url` was appended
to the Store and the call returned it (then `stored.append`,
`processed_urls.add`); `false` means it raised, which the closure catches
having persisted nothing (a storage append either durably writes the row
and returns or raises without the row). -/
def processDuringCrawl (procOracle : String → Nat → Bool) (url : String)
    (ps : ProcState) : ProcState :=
  if url ∈ ps.processed then ps
  else
    let n := ps.attempts.count url
    let ps := { ps with attempts := url :: ps.attempts }
    if procOracle url n then
      { ps with
        storedUrls := ps.storedUrls ++ [url],
        processed := url :: ps.processed }
    else ps

/-- State of the link-crawl `while` loop. -/
structure LinkState where
  queue : List (String × Option String × Nat)
  seen : List String
  records : List URLRecord
  ps : ProcState

/-- The `for a in soup.find_all("a", href=True)` loop (source lines
180–188): strip, drop empty/fragment/mailto hrefs, join+normalize, and
enqueue at depth `d + 1` those unseen, domain-allowed and within the
depth limit. -/
def linkTargets (env : CrawlEnv) (allowed : List String)
    (limits : CrawlLimits) (seen : List String) (url : String) (d : Nat) :
    List String → List (String × Option String × Nat)
  | [] => []
  | href :: hs =>
    let rest := linkTargets env allowed limits seen url d hs
    let h := pyStrip href
    if h = "" ∨ pyStartsWith h "#" ∨ pyStartsWith h "mailto:" then rest
    else
      let nrm := env.normLink h url
      if nrm ∉ seen ∧ (allowed = [] ∨ env.netlocOf nrm ∈ allowed) then
        if d + 1 ≤ limits.max_depth then (nrm, some url, d + 1) :: rest
        else rest
      else rest

/-- `if url not in seen: seen.add(url); records.append(...)` (source
lines 146–156). -/
def recordStep (st : LinkState) (url : String) (fromUrl : Option String)
    (d : Nat) : LinkState :=
  if url ∉ st.seen then
    { st with
      seen := url :: st.seen,
      records := st.records ++
        [{ url := url, discovered_from := fromUrl, depth := d }] }
  else st

/-- The crawl-time processing callback invocation (source lines 163–176):
only when a callback was supplied and the content type contains
`"html"`. -/
def callbackStep (procOracle : String → Nat → Bool) (useCallback : Bool)
    (pg : CrawlPage) (url : String) (st : LinkState) : LinkState :=
  if useCallback ∧ pg.htmlish then
    { st with ps := processDuringCrawl procOracle url st.ps }
  else st

/-- The body of `for url, from_url, d in batch` (source lines 141–190):
depth and domain filters, record creation for unseen URLs, fetch (errors
swallowed), the optional crawl-time processing callback (only for HTML
content), and link extraction/enqueueing. -/
def processItem (env : CrawlEnv) (allowed : List String)
    (limits : CrawlLimits) (procOracle : String → Nat → Bool)
    (useCallback : Bool) (st : LinkState)
    (item : String × Option String × Nat) : LinkState :=
  let url := item.1
  let fromUrl := item.2.1
  let d := item.2.2
  if limits.max_depth < d then st
  else if domainBlocked allowed (env.netlocOf url) then st
  else
    let st1 := recordStep st url fromUrl d
    let pg := env.page url
    if pg.raisesError then st1
    else if pg.status ≠ 200 then st1
    else
      let st2 := callbackStep procOracle useCallback pg url st1
      { st2 with queue := st2.queue ++
          linkTargets env allowed limits st2.seen url d pg.hrefs }

/-- The link-crawl `while` loop of `crawl_tool` (source lines 134–190):
take a batch of `max_pages - len(records)` queued items, then run the
body over the batch.  `none` when fuel runs out. -/
def linkLoop (env : CrawlEnv) (allowed : List String)
    (limits : CrawlLimits) (procOracle : String → Nat → Bool)
    (useCallback : Bool) : Nat → LinkState → Option LinkState
  | 0, _ => none
  | fuel + 1, st =>
    if st.queue = [] ∨ limits.max_pages ≤ st.records.length then some st
    else
      let batch := st.queue.take (limits.max_pages - st.records.length)
      let rest := st.queue.drop batch.length
      linkLoop env allowed limits procOracle useCallback fuel
        (batch.foldl (processItem env allowed limits procOracle useCallback)
          { st with queue := rest })

/-- The final `by_url` dedup pass (source lines 194–197): keep the
first-seen record per URL, in order. -/
def dedupByUrl (rs : List URLRecord) : List URLRecord :=
  rs.foldl
    (fun acc r => if acc.any (fun x => x.url == r.url) then acc
      else acc ++ [r]) []

/-- The seed loop (source lines 64–68): normalize each start URL, and
enqueue the unseen ones at depth 0, marking them seen. -/
def seedFold (env : CrawlEnv) (start_urls : List String) :
    List String × List (String × Option String × Nat) :=
  start_urls.foldl
    (fun sq u =>
      let nrm := env.norm u
      if nrm ∈ sq.1 then sq else (nrm :: sq.1, sq.2 ++ [(nrm, none, 0)]))
    ([], [])

/-- `crawl_tool(config, start_urls, process_callback)` (source lines
35–200): seeds, per-seed `sitemap.xml` URLs, the sitemap loop, the
link-crawl loop, and the final dedup/truncate.  Returns the record list
together with the callback's `ProcState`; `none` when either loop's fuel
runs out. -/
def crawl_tool (env : CrawlEnv) (allowed_domains : List String)
    (start_urls : List String) (limits : CrawlLimits)
    (procOracle : String → Nat → Bool) (useCallback : Bool)
    (fuel1 fuel2 : Nat) : Option (List URLRecord × ProcState) :=
  if start_urls = [] then some ([], {})
  else
    let allowed := if allowed_domains ≠ [] then allowed_domains
      else start_urls.map env.netlocOf
    let sq := seedFold env start_urls
    let sitemapUrls := start_urls.map
      (fun u => env.schemeOf u ++ "://" ++ env.netlocOf u ++ "/sitemap.xml")
    match sitemapLoop env allowed limits fuel1 sitemapUrls [] sq.1 [] with
    | none => none
    | some sr =>
      match linkLoop env allowed limits procOracle useCallback fuel2
          { queue := sq.2, seen := sr.1, records := sr.2, ps := {} } with
      | none => none
      | some st =>
        some ((dedupByUrl st.records).take limits.max_pages, st.ps)

/-- `MCPAgent.run` (source lines 46–114): initialize storage, crawl with
the `process_during_crawl` callback, then process the leftover records
(those with `rec.url not in processed_urls`) through `_process_url`;
`leftOracle r.url = true` means that leftover call appended a row for
`r.url` to the Store and returned it (`stored.append(result)`), `false`
means it returned `None` (fetch failure / skip) or raised (caught by the
loop's `except`), appending nothing.  Returns the URLs of the rows
appended to the Store, in order. -/
def runAgent (env : CrawlEnv) (allowed_domains : List String)
    (start_urls : List String) (limits : CrawlLimits)
    (procOracle : String → Nat → Bool) (leftOracle : String → Bool)
    (fuel1 fuel2 : Nat) : Option (List String) :=
  match crawl_tool env allowed_domains start_urls limits procOracle true
      fuel1 fuel2 with
  | none => none
  | some (records, ps) =>
    let unprocessed := records.filter (fun r => r.url ∉ ps.processed)
    let leftoverStored := unprocessed.foldl
      (fun acc r => if leftOracle r.url then acc ++ [r.url] else acc) []
    some (ps.storedUrls ++ leftoverStored)

/-! ## Frontier lemmas -/

theorem dedupByUrl_nodup_aux (rs : List URLRecord) :
    ∀ acc : List URLRecord, (acc.map (fun r => r.url)).Nodup →
      (((rs.foldl
        (fun acc r => if acc.any (fun x => x.url == r.url) then acc
          else acc ++ [r]) acc)).map (fun r => r.url)).Nodup := by
  induction rs with
  | nil => intro acc h; exact h
  | cons r rs ih =>
    intro acc h
    simp only [List.foldl_cons]
    by_cases hc : acc.any (fun x => x.url == r.url) = true
    · rw [if_pos hc]; exact ih acc h
    · rw [if_neg hc]
      refine ih _ ?_
      rw [List.map_append]
      simp only [List.map_cons, List.map_nil]
      apply List.Nodup.append h (List.nodup_singleton _)
      intro a ha hb
      simp only [List.mem_singleton] at hb
      subst hb
      simp only [List.any_eq_true, beq_iff_eq, not_exists, not_and] at hc
      obtain ⟨x, hx, hxu⟩ := List.mem_map.mp ha
      exact hc x hx hxu

theorem dedupByUrl_nodup (rs : List URLRecord) :
    ((dedupByUrl rs).map (fun r => r.url)).Nodup :=
  dedupByUrl_nodup_aux rs [] (by simp)

theorem dedupByUrl_subset_aux (rs : List URLRecord) :
    ∀ acc : List URLRecord, ∀ x ∈ rs.foldl
      (fun acc r => if acc.any (fun x => x.url == r.url) then acc
        else acc ++ [r]) acc, x ∈ acc ∨ x ∈ rs := by
  induction rs with
  | nil => intro acc x hx; exact Or.inl hx
  | cons r rs ih =>
    intro acc x hx
    simp only [List.foldl_cons] at hx
    by_cases hc : acc.any (fun y => y.url == r.url) = true
    · rw [if_pos hc] at hx
      rcases ih acc x hx with h | h
      · exact Or.inl h
      · exact Or.inr (List.mem_cons_of_mem _ h)
    · rw [if_neg hc] at hx
      rcases ih _ x hx with h | h
      · rcases List.mem_append.mp h with h | h
        · exact Or.inl h
        · simp only [List.mem_singleton] at h
          exact Or.inr (h ▸ List.mem_cons_self _ _)
      · exact Or.inr (List.mem_cons_of_mem _ h)

theorem dedupByUrl_subset (rs : List URLRecord) :
    ∀ x ∈ dedupByUrl rs, x ∈ rs := by
  intro x hx
  rcases dedupByUrl_subset_aux rs [] x hx with h | h
  · exact absurd h (List.not_mem_nil x)
  · exact h

/-- All records of a list have depth at most `n`. -/
def AllDepthLE (n : Nat) (rs : List URLRecord) : Prop :=
  ∀ r ∈ rs, r.depth ≤ n

theorem addLocs_depth (env : CrawlEnv) (allowed : List String)
    (maxPages : Nat) (smUrl : String) (locs : List String) :
    ∀ seen records, AllDepthLE n records →
      AllDepthLE n (addLocs env allowed maxPages smUrl locs seen records).2 := by
  induction locs with
  | nil => intro seen records h; exact h
  | cons u us ih =>
    intro seen records h
    simp only [addLocs]
    split_ifs with h1 h2 h3
    · exact ih _ _ h
    · exact ih _ _ h
    · exact h
    · refine ih _ _ ?_
      intro r hr
      rcases List.mem_append.mp hr with hh | hh
      · exact h r hh
      · simp only [List.mem_singleton] at hh
        subst hh
        exact Nat.zero_le n

theorem sitemapLoop_depth (env : CrawlEnv) (allowed : List String)
    (limits : CrawlLimits) (fuel : Nat) :
    ∀ toProcess processed seen records out,
      sitemapLoop env allowed limits fuel toProcess processed seen records
        = some out →
      AllDepthLE n records → AllDepthLE n out.2 := by
  induction fuel with
  | zero => intro _ _ _ _ _ h; exact absurd h (by simp [sitemapLoop])
  | succ fuel ih =>
    intro toProcess processed seen records out h hd
    match toProcess with
    | [] =>
      simp only [sitemapLoop] at h
      cases h
      exact hd
    | sm :: rest =>
      simp only [sitemapLoop] at h
      split at h
      · cases h; exact hd
      · split at h
        · exact ih _ _ _ _ _ h hd
        · split at h
          · exact ih _ _ _ _ _ h hd
          · split at h
            · exact ih _ _ _ _ _ h hd
            · split at h
              · exact ih _ _ _ _ _ h hd
              · exact ih _ _ _ _ _ h
                  (addLocs_depth env allowed limits.max_pages sm _ _ _ hd)

theorem processItem_depth (env : CrawlEnv) (allowed : List String)
    (limits : CrawlLimits) (procOracle : String → Nat → Bool)
    (useCallback : Bool) (st : LinkState)
    (item : String × Option String × Nat)
    (h : AllDepthLE limits.max_depth st.records) :
    AllDepthLE limits.max_depth
      (processItem env allowed limits procOracle useCallback st item).records
    := by
  unfold processItem
  dsimp only
  split_ifs with h1 h2 h3 h4
  · exact h
  · exact h
  all_goals {
    have hrec : AllDepthLE limits.max_depth
        (recordStep st item.1 item.2.1 item.2.2).records := by
      unfold recordStep
      split
      · intro r hr
        rcases List.mem_append.mp hr with hh | hh
        · exact h r hh
        · simp only [List.mem_singleton] at hh
          subst hh
          exact Nat.le_of_not_lt h1
      · exact h
    first
    | exact hrec
    | { unfold callbackStep
        split
        · exact hrec
        · exact hrec } }

theorem linkLoop_depth (env : CrawlEnv) (allowed : List String)
    (limits : CrawlLimits) (procOracle : String → Nat → Bool)
    (useCallback : Bool) (fuel : Nat) :
    ∀ st out, linkLoop env allowed limits procOracle useCallback fuel st
        = some out →
      AllDepthLE limits.max_depth st.records →
      AllDepthLE limits.max_depth out.records := by
  induction fuel with
  | zero => intro _ _ h; exact absurd h (by simp [linkLoop])
  | succ fuel ih =>
    intro st out h hd
    simp only [linkLoop] at h
    split at h
    · cases h; exact hd
    · refine ih _ _ h ?_
      have : ∀ batch : List (String × Option String × Nat),
          ∀ s : LinkState, AllDepthLE limits.max_depth s.records →
          AllDepthLE limits.max_depth
            (batch.foldl
              (processItem env allowed limits procOracle useCallback)
              s).records := by
        intro batch
        induction batch with
        | nil => intro s hs; exact hs
        | cons b bs ihb =>
          intro s hs
          exact ihb _ (processItem_depth env allowed limits procOracle
            useCallback s b hs)
      exact this _ _ hd

/-! ## Claim C9: the Frontier postcondition -/

/-- C9: whenever `crawl_tool` completes, its record list contains no two
records with equal (normalized) URL, has length at most `max_pages`, and
contains no record of depth greater than `max_depth` — for every
collaborator behaviour, configuration and fuel. -/
theorem c9_frontier_postcondition (env : CrawlEnv)
    (allowed_domains start_urls : List String) (limits : CrawlLimits)
    (procOracle : String → Nat → Bool) (useCallback : Bool)
    (fuel1 fuel2 : Nat) (out : List URLRecord) (ps : ProcState)
    (h : crawl_tool env allowed_domains start_urls limits procOracle
      useCallback fuel1 fuel2 = some (out, ps)) :
    (out.map (fun r => r.url)).Nodup ∧ out.length ≤ limits.max_pages ∧
      ∀ r ∈ out, r.depth ≤ limits.max_depth := by
  unfold crawl_tool at h
  split at h
  · cases h
    refine ⟨by simp, by simp, ?_⟩
    intro r hr
    exact absurd hr (List.not_mem_nil r)
  · dsimp only at h
    split at h
    · exact absurd h (by simp)
    · split at h
      · exact absurd h (by simp)
      · rename_i x1 sr hsm x2 st hlk
        simp only [Option.some.injEq, Prod.mk.injEq] at h
        obtain ⟨h1, h2⟩ := h
        subst h1
        refine ⟨?_, ?_, ?_⟩
        · exact List.Nodup.sublist
            (List.Sublist.map _ (List.take_sublist _ _))
            (dedupByUrl_nodup st.records)
        · exact List.length_take_le _ _
        · intro r hr
          have hr1 : r ∈ dedupByUrl st.records :=
            List.take_subset _ _ hr
          have hr2 : r ∈ st.records := dedupByUrl_subset _ r hr1
          have hd : AllDepthLE limits.max_depth st.records := by
            refine linkLoop_depth env _ limits procOracle useCallback
              fuel2 _ st hlk ?_
            exact sitemapLoop_depth env _ limits fuel1 _ _ _ _ sr hsm
              (fun r hr => absurd hr (List.not_mem_nil r))
          exact hd r hr2

/-- A one-page world for concrete witnesses of the frontier claims: one
seed whose sitemap is an index referencing itself and, transitively, a
leaf sitemap; identity normalization. -/
def witnessCrawlEnv : CrawlEnv :=
  { norm := fun u => u,
    normLink := fun href _ =>
      if href = "/a" then "http://x.test/a" else href,
    netlocOf := fun _ => "x.test",
    schemeOf := fun _ => "http",
    smap := fun u =>
      if u = "http://x.test/sitemap.xml" then
        { sitemapLocs := ["http://x.test/sitemap.xml",
            "http://x.test/sitemap2.xml"] }
      else if u = "http://x.test/sitemap2.xml" then
        { urlLocs := ["http://x.test/a", "http://x.test/"] }
      else { raisesError := true },
    page := fun u =>
      if u = "http://x.test/" then
        { hrefs := ["/a", "#frag", "mailto:x@y", "http://x.test/b"] }
      else { hrefs := [] } }

/-- Witness for `c9_frontier_postcondition`: a concrete completing crawl
satisfies the postcondition. -/
theorem c9_frontier_postcondition_witness :
    ∃ out ps,
      crawl_tool witnessCrawlEnv [] ["http://x.test/"]
        { max_depth := 1, max_pages := 2 } (fun _ _ => false) false 8 8
        = some (out, ps) ∧
      (out.map (fun r => r.url)).Nodup ∧
      out.length ≤ 2 ∧ ∀ r ∈ out, r.depth ≤ 1 := by
  have h : crawl_tool witnessCrawlEnv [] ["http://x.test/"]
      { max_depth := 1, max_pages := 2 } (fun _ _ => false) false 8 8
      = some
        ([{ url := "http://x.test/a",
            discovered_from := some "http://x.test/sitemap2.xml",
            depth := 0 },
          { url := "http://x.test/b",
            discovered_from := some "http://x.test/",
            depth := 1 }], {}) := by decide
  exact ⟨_, _, h, c9_frontier_postcondition _ _ _ _ _ _ _ _ _ _ h⟩

/-! ## Generic loop-invariant lemmas -/

theorem sitemapLoop_inv (env : CrawlEnv) (allowed : List String)
    (limits : CrawlLimits) (P : List String → List URLRecord → Prop)
    (hstep : ∀ sm locs seen records, P seen records →
      P (addLocs env allowed limits.max_pages sm locs seen records).1
        (addLocs env allowed limits.max_pages sm locs seen records).2)
    (fuel : Nat) :
    ∀ toProcess processed seen records out,
      sitemapLoop env allowed limits fuel toProcess processed seen records
        = some out → P seen records → P out.1 out.2 := by
  induction fuel with
  | zero => intro _ _ _ _ _ h; exact absurd h (by simp [sitemapLoop])
  | succ fuel ih =>
    intro toProcess processed seen records out h hP
    match toProcess with
    | [] =>
      simp only [sitemapLoop] at h
      cases h
      exact hP
    | sm :: rest =>
      simp only [sitemapLoop] at h
      split at h
      · cases h; exact hP
      · split at h
        · exact ih _ _ _ _ _ h hP
        · split at h
          · exact ih _ _ _ _ _ h hP
          · split at h
            · exact ih _ _ _ _ _ h hP
            · split at h
              · exact ih _ _ _ _ _ h hP
              · exact ih _ _ _ _ _ h (hstep sm _ _ _ hP)

theorem linkLoop_inv (env : CrawlEnv) (allowed : List String)
    (limits : CrawlLimits) (procOracle : String → Nat → Bool)
    (useCallback : Bool) (P : LinkState → Prop)
    (hqueue : ∀ st q, P st → P { st with queue := q })
    (hstep : ∀ st item, P st →
      P (processItem env allowed limits procOracle useCallback st item))
    (fuel : Nat) :
    ∀ st out,
      linkLoop env allowed limits procOracle useCallback fuel st = some out
      → P st → P out := by
  induction fuel with
  | zero => intro _ _ h; exact absurd h (by simp [linkLoop])
  | succ fuel ih =>
    intro st out h hP
    simp only [linkLoop] at h
    split at h
    · cases h; exact hP
    · refine ih _ _ h ?_
      have hbatch : ∀ batch : List (String × Option String × Nat),
          ∀ s : LinkState, P s →
          P (batch.foldl
            (processItem env allowed limits procOracle useCallback) s) := by
        intro batch
        induction batch with
        | nil => intro s hs; exact hs
        | cons b bs ihb => intro s hs; exact ihb _ (hstep s b hs)
      exact hbatch _ _ (hqueue st _ hP)

/-! ## Claim C10: seeds never appear in the record list -/

/-- The seed-exclusion invariant: every normalized seed is in `seen`, and
no record's URL equals a normalized seed. -/
def SeedSafe (env : CrawlEnv) (start_urls : List String)
    (seen : List String) (records : List URLRecord) : Prop :=
  (∀ s ∈ start_urls, env.norm s ∈ seen) ∧
    ∀ r ∈ records, ∀ s ∈ start_urls, r.url ≠ env.norm s

theorem addLocs_seedSafe (env : CrawlEnv) (allowed : List String)
    (maxPages : Nat) (smUrl : String) (start_urls : List String)
    (locs : List String) :
    ∀ seen records, SeedSafe env start_urls seen records →
      SeedSafe env start_urls
        (addLocs env allowed maxPages smUrl locs seen records).1
        (addLocs env allowed maxPages smUrl locs seen records).2 := by
  induction locs with
  | nil => intro seen records h; exact h
  | cons u us ih =>
    intro seen records h
    simp only [addLocs]
    split_ifs with h1 h2 h3
    · exact ih _ _ h
    · exact ih _ _ h
    · exact h
    · refine ih _ _ ⟨?_, ?_⟩
      · intro s hs
        exact List.mem_cons_of_mem _ (h.1 s hs)
      · intro r hr s hs
        rcases List.mem_append.mp hr with hh | hh
        · exact h.2 r hh s hs
        · simp only [List.mem_singleton] at hh
          subst hh
          intro hcontra
          have hco : env.norm u = env.norm s := hcontra
          exact h1 (by rw [hco]; exact h.1 s hs)

theorem recordStep_seedSafe (env : CrawlEnv) (start_urls : List String)
    (st : LinkState) (url : String) (fromUrl : Option String) (d : Nat)
    (h : SeedSafe env start_urls st.seen st.records) :
    SeedSafe env start_urls (recordStep st url fromUrl d).seen
      (recordStep st url fromUrl d).records := by
  unfold recordStep
  split
  · rename_i hnot
    refine ⟨?_, ?_⟩
    · intro s hs
      exact List.mem_cons_of_mem _ (h.1 s hs)
    · intro r hr s hs
      rcases List.mem_append.mp hr with hh | hh
      · exact h.2 r hh s hs
      · simp only [List.mem_singleton] at hh
        subst hh
        intro hcontra
        have hco : url = env.norm s := hcontra
        exact hnot (by rw [hco]; exact h.1 s hs)
  · exact h

theorem processItem_seedSafe (env : CrawlEnv) (allowed : List String)
    (limits : CrawlLimits) (procOracle : String → Nat → Bool)
    (useCallback : Bool) (start_urls : List String) (st : LinkState)
    (item : String × Option String × Nat)
    (h : SeedSafe env start_urls st.seen st.records) :
    SeedSafe env start_urls
      (processItem env allowed limits procOracle useCallback st item).seen
      (processItem env allowed limits procOracle useCallback st item).records
    := by
  unfold processItem
  dsimp only
  split_ifs with h1 h2 h3 h4
  · exact h
  · exact h
  all_goals {
    have hrec := recordStep_seedSafe env start_urls st item.1 item.2.1
      item.2.2 h
    first
    | exact hrec
    | { unfold callbackStep
        split
        · exact hrec
        · exact hrec } }

/-- C10: whenever `crawl_tool` completes, no returned record carries the
normalized form of a seed URL: seeds enter the `seen` set when enqueued,
before any record exists, and records are only appended for URLs not in
`seen` — even when a sitemap also lists a seed. -/
theorem c10_seeds_not_in_records (env : CrawlEnv)
    (allowed_domains start_urls : List String) (limits : CrawlLimits)
    (procOracle : String → Nat → Bool) (useCallback : Bool)
    (fuel1 fuel2 : Nat) (out : List URLRecord) (ps : ProcState)
    (h : crawl_tool env allowed_domains start_urls limits procOracle
      useCallback fuel1 fuel2 = some (out, ps)) :
    ∀ r ∈ out, ∀ s ∈ start_urls, r.url ≠ env.norm s := by
  have hmono : ∀ (l : List String) (acc : List String ×
      List (String × Option String × Nat)), ∀ x ∈ acc.1,
      x ∈ (l.foldl (fun sq u =>
        let nrm := env.norm u
        if nrm ∈ sq.1 then sq
        else (nrm :: sq.1, sq.2 ++ [(nrm, none, 0)])) acc).1 := by
    intro l
    induction l with
    | nil => intro acc x hx; exact hx
    | cons a as iha =>
      intro acc x hx
      simp only [List.foldl_cons]
      split
      · exact iha _ x hx
      · exact iha _ x (List.mem_cons_of_mem _ hx)
  have hstep : ∀ (l : List String) (acc : List String ×
      List (String × Option String × Nat)), ∀ u ∈ l,
      env.norm u ∈ (l.foldl (fun sq u =>
        let nrm := env.norm u
        if nrm ∈ sq.1 then sq
        else (nrm :: sq.1, sq.2 ++ [(nrm, none, 0)])) acc).1 := by
    intro l
    induction l with
    | nil => intro acc u hu; exact absurd hu (List.not_mem_nil u)
    | cons a as iha =>
      intro acc u hu
      simp only [List.foldl_cons]
      rcases List.mem_cons.mp hu with hh | hh
      · subst hh
        split
        · exact hmono as _ _ (by assumption)
        · exact hmono as _ _ (List.mem_cons_self _ _)
      · split
        · exact iha _ u hh
        · exact iha _ u hh
  have hseed : ∀ u ∈ start_urls, env.norm u ∈ (seedFold env start_urls).1
    := fun u hu => hstep start_urls ([], []) u hu
  unfold crawl_tool at h
  split at h
  · rename_i hempty
    cases h
    intro r hr
    exact absurd hr (List.not_mem_nil r)
  · dsimp only at h
    split at h
    · exact absurd h (by simp)
    · split at h
      · exact absurd h (by simp)
      · rename_i x1 sr hsm x2 st hlk
        simp only [Option.some.injEq, Prod.mk.injEq] at h
        obtain ⟨h1, h2⟩ := h
        subst h1
        have hsmSafe : SeedSafe env start_urls sr.1 sr.2 := by
          refine sitemapLoop_inv env _ limits
            (SeedSafe env start_urls) ?_ fuel1 _ _ _ _ sr hsm
            ⟨hseed, fun r hr => absurd hr (List.not_mem_nil r)⟩
          intro sm locs seen records hP
          exact addLocs_seedSafe env _ limits.max_pages sm start_urls locs
            seen records hP
        have hlkSafe : SeedSafe env start_urls st.seen st.records := by
          refine linkLoop_inv env _ limits procOracle useCallback
            (fun s => SeedSafe env start_urls s.seen s.records)
            (fun s q hP => hP) ?_ fuel2 _ st hlk hsmSafe
          intro s item hP
          exact processItem_seedSafe env _ limits procOracle useCallback
            start_urls s item hP
        intro r hr s hs
        have hr2 : r ∈ st.records :=
          dedupByUrl_subset _ r (List.take_subset _ _ hr)
        exact hlkSafe.2 r hr2 s hs

/-- Witness for `c10_seeds_not_in_records`: the concrete completing crawl
from the one-page world returns records, none of which is the normalized
seed (even though the seed also appears in the leaf sitemap). -/
theorem c10_seeds_not_in_records_witness :
    ∃ out ps,
      crawl_tool witnessCrawlEnv [] ["http://x.test/"]
        { max_depth := 1, max_pages := 2 } (fun _ _ => false) false 8 8
        = some (out, ps) ∧
      out ≠ [] ∧
      ∀ r ∈ out, ∀ s ∈ ["http://x.test/"], r.url ≠ witnessCrawlEnv.norm s
    := by
  have h : crawl_tool witnessCrawlEnv [] ["http://x.test/"]
      { max_depth := 1, max_pages := 2 } (fun _ _ => false) false 8 8
      = some
        ([{ url := "http://x.test/a",
            discovered_from := some "http://x.test/sitemap2.xml",
            depth := 0 },
          { url := "http://x.test/b",
            discovered_from := some "http://x.test/",
            depth := 1 }], {}) := by decide
  exact ⟨_, _, h, by decide,
    c10_seeds_not_in_records _ _ _ _ _ _ _ _ _ _ h⟩

/-! ## Claim C1: at-most-once persistence per normalized URL -/

/-- The store invariant maintained by `process_during_crawl`: the Store
holds at most one row per URL, and every crawl-time-stored URL is in
`processed_urls`. -/
def StoreInv (ps : ProcState) : Prop :=
  ps.storedUrls.Nodup ∧ ∀ u ∈ ps.storedUrls, u ∈ ps.processed

theorem processDuringCrawl_storeInv (procOracle : String → Nat → Bool)
    (url : String) (ps : ProcState) (h : StoreInv ps) :
    StoreInv (processDuringCrawl procOracle url ps) := by
  unfold processDuringCrawl
  split
  · exact h
  · rename_i hnot
    dsimp only
    split
    · refine ⟨?_, ?_⟩
      · refine List.Nodup.append h.1 (List.nodup_singleton _) ?_
        intro a ha hb
        simp only [List.mem_singleton] at hb
        subst hb
        exact hnot (h.2 a ha)
      · intro u hu
        rcases List.mem_append.mp hu with hh | hh
        · exact List.mem_cons_of_mem _ (h.2 u hh)
        · simp only [List.mem_singleton] at hh
          subst hh
          exact List.mem_cons_self _ _
    · exact h

theorem processItem_storeInv (env : CrawlEnv) (allowed : List String)
    (limits : CrawlLimits) (procOracle : String → Nat → Bool)
    (useCallback : Bool) (st : LinkState)
    (item : String × Option String × Nat) (h : StoreInv st.ps) :
    StoreInv
      (processItem env allowed limits procOracle useCallback st item).ps
    := by
  unfold processItem
  dsimp only
  split_ifs with h1 h2 h3 h4
  · exact h
  · exact h
  all_goals {
    have hrec : StoreInv (recordStep st item.1 item.2.1 item.2.2).ps := by
      unfold recordStep
      split
      · exact h
      · exact h
    first
    | exact hrec
    | { unfold callbackStep
        split
        · exact processDuringCrawl_storeInv procOracle item.1 _ hrec
        · exact hrec } }

/-- Whenever `crawl_tool` completes: its record list has pairwise
distinct URLs and the crawl-time processing state satisfies the store
invariant. -/
theorem crawl_tool_storeInv (env : CrawlEnv)
    (allowed_domains start_urls : List String) (limits : CrawlLimits)
    (procOracle : String → Nat → Bool) (useCallback : Bool)
    (fuel1 fuel2 : Nat) (out : List URLRecord) (ps : ProcState)
    (h : crawl_tool env allowed_domains start_urls limits procOracle
      useCallback fuel1 fuel2 = some (out, ps)) :
    (out.map (fun r => r.url)).Nodup ∧ StoreInv ps := by
  unfold crawl_tool at h
  split at h
  · cases h
    exact ⟨by simp, List.nodup_nil, fun u hu => absurd hu
      (List.not_mem_nil u)⟩
  · dsimp only at h
    split at h
    · exact absurd h (by simp)
    · split at h
      · exact absurd h (by simp)
      · rename_i x1 sr hsm x2 st hlk
        simp only [Option.some.injEq, Prod.mk.injEq] at h
        obtain ⟨h1, h2⟩ := h
        subst h1
        subst h2
        refine ⟨List.Nodup.sublist
          (List.Sublist.map _ (List.take_sublist _ _))
          (dedupByUrl_nodup st.records), ?_⟩
        refine linkLoop_inv env _ limits procOracle useCallback
          (fun s => StoreInv s.ps) (fun s q hP => hP) ?_ fuel2 _ st hlk
          ⟨List.nodup_nil, fun u hu => absurd hu (List.not_mem_nil u)⟩
        intro s item hP
        exact processItem_storeInv env _ limits procOracle useCallback
          s item hP

theorem leftover_fold (p : String → Bool) (l : List URLRecord) :
    ∀ acc, l.foldl
        (fun acc r => if p r.url then acc ++ [r.url] else acc) acc
      = acc ++ (l.filter (fun r => p r.url)).map (fun r => r.url) := by
  induction l with
  | nil => intro acc; simp
  | cons r rs ih =>
    intro acc
    simp only [List.foldl_cons]
    by_cases hp : p r.url = true
    · rw [if_pos hp, ih]
      simp [hp]
    · rw [if_neg hp, ih]
      simp [hp]

/-- C1: on every completing run of the batch pipeline, the URLs of the
rows appended to the Store are pairwise distinct — each normalized URL is
persisted at most once, however often it is rediscovered via sitemap,
link traversal, or the leftover sweep, and whatever the per-attempt
processing outcomes are. -/
theorem c1_store_at_most_once (env : CrawlEnv)
    (allowed_domains start_urls : List String) (limits : CrawlLimits)
    (procOracle : String → Nat → Bool) (leftOracle : String → Bool)
    (fuel1 fuel2 : Nat) (storedUrls : List String)
    (h : runAgent env allowed_domains start_urls limits procOracle
      leftOracle fuel1 fuel2 = some storedUrls) :
    storedUrls.Nodup := by
  unfold runAgent at h
  split at h
  · exact absurd h (by simp)
  · rename_i x records ps hcrawl
    obtain ⟨hrec, hstore⟩ := crawl_tool_storeInv env allowed_domains
      start_urls limits procOracle true fuel1 fuel2 records ps hcrawl
    dsimp only at h
    rw [leftover_fold] at h
    simp only [Option.some.injEq, List.nil_append] at h
    subst h
    have hunproc : ((records.filter
        (fun r => r.url ∉ ps.processed)).map (fun r => r.url)).Nodup :=
      List.Nodup.sublist
        (List.Sublist.map _ (List.filter_sublist _)) hrec
    have hleft : (((records.filter (fun r => r.url ∉ ps.processed)).filter
        (fun r => leftOracle r.url)).map (fun r => r.url)).Nodup :=
      List.Nodup.sublist
        (List.Sublist.map _ (List.filter_sublist _)) hunproc
    refine List.Nodup.append hstore.1 hleft ?_
    intro u hu hv
    have hup : u ∈ ps.processed := hstore.2 u hu
    obtain ⟨r, hrmem, hru⟩ := List.mem_map.mp hv
    have hr1 := List.mem_filter.mp hrmem
    have hr2 := List.mem_filter.mp hr1.1
    have : r.url ∉ ps.processed := by
      simpa using hr2.2
    exact this (hru ▸ hup)

/-- Witness for `c1_store_at_most_once`: a concrete completing run (the
seed page processed during crawl, `/b` processed during crawl, `/a`
stored by the leftover sweep) yields pairwise distinct stored URLs. -/
theorem c1_store_at_most_once_witness :
    ∃ stored,
      runAgent witnessCrawlEnv [] ["http://x.test/"]
        { max_depth := 1, max_pages := 2 } (fun _ _ => true)
        (fun _ => true) 8 8 = some stored ∧
      stored.Nodup := by
  have h : runAgent witnessCrawlEnv [] ["http://x.test/"]
      { max_depth := 1, max_pages := 2 } (fun _ _ => true)
      (fun _ => true) 8 8
      = some ["http://x.test/", "http://x.test/b", "http://x.test/a"] := by
    decide
  exact ⟨_, h, c1_store_at_most_once _ _ _ _ _ _ _ _ _ h⟩

/-! ## Claim C8: sitemap-index resolution terminates -/

/-- Number of candidate sitemap URLs not yet processed. -/
def smCount (U processed : List String) : Nat :=
  (U.dedup.filter (fun x => x ∉ processed)).length

/-- Total number of sitemap references the candidate universe can emit. -/
def smBound (env : CrawlEnv) (U : List String) : Nat :=
  (U.map (fun s => (env.smap s).sitemapLocs.length)).sum

theorem smCount_cons_lt (U processed : List String) (sm : String)
    (hU : sm ∈ U) (hp : sm ∉ processed) :
    smCount U (sm :: processed) < smCount U processed := by
  unfold smCount
  have hsub : List.Sublist
      (U.dedup.filter (fun x => x ∉ sm :: processed))
      (U.dedup.filter (fun x => x ∉ processed)) := by
    refine List.monotone_filter_right _ ?_
    intro a ha
    simp only [decide_eq_true_eq, List.mem_cons, not_or] at ha ⊢
    exact ha.2
  have hmem : sm ∈ U.dedup.filter (fun x => x ∉ processed) := by
    simp only [List.mem_filter, List.mem_dedup, decide_eq_true_eq]
    exact ⟨hU, hp⟩
  have hnmem : sm ∉ U.dedup.filter (fun x => x ∉ sm :: processed) := by
    intro hcontra
    have hc2 := (List.mem_filter.mp hcontra).2
    simp only [decide_eq_true_eq] at hc2
    exact hc2 (List.mem_cons_self _ _)
  refine Nat.lt_of_le_of_ne (List.Sublist.length_le hsub) ?_
  intro heq
  exact hnmem (List.Sublist.eq_of_length hsub heq ▸ hmem)

theorem smBound_le (env : CrawlEnv) (U : List String) (sm : String)
    (hU : sm ∈ U) :
    (env.smap sm).sitemapLocs.length ≤ smBound env U := by
  unfold smBound
  exact List.single_le_sum (fun x _ => Nat.zero_le x) _
    (List.mem_map_of_mem _ hU)

theorem measure_lt (a b rest q B : Nat) (h1 : a + 1 ≤ b)
    (h2 : q ≤ rest + B) :
    a * (1 + B) + q < b * (1 + B) + (rest + 1) := by
  have h3 : (a + 1) * (1 + B) ≤ b * (1 + B) :=
    Nat.mul_le_mul_right _ h1
  have h4 : (a + 1) * (1 + B) = a * (1 + B) + (1 + B) := by ring
  omega

/-- The measure that bounds the remaining work of the sitemap loop. -/
def smMeasure (env : CrawlEnv) (U processed toProcess : List String) :
    Nat :=
  smCount U processed * (1 + smBound env U) + toProcess.length

theorem sitemapLoop_terminates_aux (env : CrawlEnv)
    (allowed : List String) (limits : CrawlLimits) (U : List String)
    (hclosed : ∀ s ∈ U, ∀ r ∈ (env.smap s).sitemapLocs, r ∈ U) :
    ∀ n toProcess processed seen records,
      (∀ s ∈ toProcess, s ∈ U) →
      smMeasure env U processed toProcess ≤ n →
      (sitemapLoop env allowed limits (n + 1) toProcess processed seen
        records).isSome = true := by
  intro n
  induction n using Nat.strong_induction_on with
  | _ n ih =>
    intro toProcess processed seen records hU hm
    match toProcess with
    | [] => simp [sitemapLoop]
    | sm :: rest =>
      have hsmU : sm ∈ U := hU sm (List.mem_cons_self _ _)
      have hrestU : ∀ s ∈ rest, s ∈ U :=
        fun s hs => hU s (List.mem_cons_of_mem _ hs)
      have hn1 : 1 ≤ n := by
        have : rest.length + 1 ≤ n := by
          unfold smMeasure at hm
          simp only [List.length_cons] at hm
          omega
        omega
      obtain ⟨m, rfl⟩ : ∃ m, n = m + 1 := ⟨n - 1, by omega⟩
      simp only [sitemapLoop]
      split
      · simp
      · split
        · rename_i hcap hproc
          -- already processed: queue shrinks by one
          refine ih (m : Nat) (by omega) rest processed seen records
            hrestU ?_
          unfold smMeasure at hm ⊢
          simp only [List.length_cons] at hm
          omega
        · rename_i hcap hproc
          have hlt : smCount U (sm :: processed) < smCount U processed :=
            smCount_cons_lt U processed sm hsmU hproc
          split
          · refine ih (m : Nat) (by omega) rest (sm :: processed) seen
              records hrestU ?_
            unfold smMeasure at hm ⊢
            simp only [List.length_cons] at hm
            have := Nat.mul_le_mul_right (1 + smBound env U)
              (Nat.succ_le_of_lt hlt)
            nlinarith
          · split
            · refine ih (m : Nat) (by omega) rest (sm :: processed) seen
                records hrestU ?_
              unfold smMeasure at hm ⊢
              simp only [List.length_cons] at hm
              nlinarith [Nat.mul_le_mul_right (1 + smBound env U)
                (Nat.succ_le_of_lt hlt)]
            · split
              · -- sitemap index: enqueue unprocessed references
                refine ih (m : Nat) (by omega) _ (sm :: processed) seen
                  records ?_ ?_
                · intro s hs
                  rcases List.mem_append.mp hs with hh | hh
                  · exact hrestU s hh
                  · exact hclosed sm hsmU s (List.mem_of_mem_filter hh)
                · have hflen : ((env.smap sm).sitemapLocs.filter
                      (fun r => r ∉ sm :: processed)).length
                      ≤ smBound env U :=
                    Nat.le_trans (List.length_filter_le _ _)
                      (smBound_le env U sm hsmU)
                  unfold smMeasure at hm ⊢
                  simp only [List.length_cons, List.length_append] at hm ⊢
                  have hkey := measure_lt (smCount U (sm :: processed))
                    (smCount U processed) rest.length
                    (rest.length + ((env.smap sm).sitemapLocs.filter
                      (fun r => r ∉ sm :: processed)).length)
                    (smBound env U) (Nat.succ_le_of_lt hlt)
                    (by omega)
                  omega
              · -- leaf sitemap: harvest and continue with the rest
                refine ih (m : Nat) (by omega) rest (sm :: processed)
                  _ _ hrestU ?_
                unfold smMeasure at hm ⊢
                simp only [List.length_cons] at hm
                nlinarith [Nat.mul_le_mul_right (1 + smBound env U)
                  (Nat.succ_le_of_lt hlt)]

/-- C8: the sitemap loop terminates on every input whose reachable
sitemap universe is finite — in particular on any sitemap index that
references itself directly or through a cycle: `U` is any finite list of
sitemap URLs containing the initial queue and closed under the references
each sitemap emits, and a fuel of `smMeasure + 1` iterations suffices for
the loop to finish (each iteration either discards an
already-`processed_sitemaps` entry or marks a new sitemap processed), so
the loop performs finitely many fetches and ends without error. -/
theorem c8_sitemap_termination (env : CrawlEnv) (allowed : List String)
    (limits : CrawlLimits) (toProcess processed seen : List String)
    (records : List URLRecord) (U : List String)
    (hU : ∀ s ∈ toProcess, s ∈ U)
    (hclosed : ∀ s ∈ U, ∀ r ∈ (env.smap s).sitemapLocs, r ∈ U) :
    ∃ fuel, (sitemapLoop env allowed limits fuel toProcess processed seen
      records).isSome = true :=
  ⟨smMeasure env U processed toProcess + 1,
    sitemapLoop_terminates_aux env allowed limits U hclosed _ toProcess
      processed seen records hU (Nat.le_refl _)⟩

/-- Witness for `c8_sitemap_termination`: the one-page world's sitemap is
an index that references *itself* (and a leaf sitemap); its resolution
nevertheless terminates. -/
theorem c8_sitemap_termination_witness :
    (∀ s ∈ ["http://x.test/sitemap.xml"],
      s ∈ ["http://x.test/sitemap.xml", "http://x.test/sitemap2.xml"]) ∧
    "http://x.test/sitemap.xml" ∈
      (witnessCrawlEnv.smap "http://x.test/sitemap.xml").sitemapLocs ∧
    ∃ fuel, (sitemapLoop witnessCrawlEnv ["x.test"]
      { max_depth := 1, max_pages := 2 } fuel
      ["http://x.test/sitemap.xml"] [] ["http://x.test/"] []).isSome
        = true := by
  refine ⟨by decide, by decide, ?_⟩
  exact c8_sitemap_termination witnessCrawlEnv ["x.test"]
    { max_depth := 1, max_pages := 2 } ["http://x.test/sitemap.xml"] []
    ["http://x.test/"] []
    ["http://x.test/sitemap.xml", "http://x.test/sitemap2.xml"]
    (by decide) (by decide)

/-! ## CPython `urllib.parse` embedding (for `normalize_url`, claim C7)

`normalize_url` (tools/crawl_tool.py lines 17–32) delegates to CPython's
`urlparse`; the relevant fragment of `urllib/parse.py` (Python 3.11) is
embedded below on `List Char`.  Two checks that raise `ValueError` in
CPython map to `none`: mismatched square brackets in the netloc, and —
as a conservative boundary of the modelled fragment — a non-ASCII netloc
(CPython additionally runs an NFKC-normalization check there, which
involves the Unicode database and is outside the model). -/

theorem toNat_ofNat_valid (n : Nat) (h : n.isValidChar) :
    (Char.ofNat n).toNat = n := by
  simp [Char.ofNat, h, Char.ofNatAux, Char.toNat, UInt32.toNat]

/-- Python `str.lower()` restricted to ASCII (the parser lowers only the
scheme, whose characters are ASCII by the guard preceding the call). -/
def pyLower (c : Char) : Char :=
  if 65 ≤ c.toNat ∧ c.toNat ≤ 90 then Char.ofNat (c.toNat + 32) else c

/-- `url[0].isascii() and url[0].isalpha()`. -/
def isAsciiAlpha (c : Char) : Bool :=
  (65 ≤ c.toNat ∧ c.toNat ≤ 90) ∨ (97 ≤ c.toNat ∧ c.toNat ≤ 122)

/-- Membership in CPython's `scheme_chars`
(ASCII letters, digits, `+`, `-`, `.`). -/
def schemeChar (c : Char) : Bool :=
  isAsciiAlpha c ∨ (48 ≤ c.toNat ∧ c.toNat ≤ 57) ∨
    c = '+' ∨ c = '-' ∨ c = '.'

theorem toNat_pyLower_upper (c : Char) (h1 : 65 ≤ c.toNat)
    (h2 : c.toNat ≤ 90) : (pyLower c).toNat = c.toNat + 32 := by
  unfold pyLower
  rw [if_pos ⟨h1, h2⟩]
  exact toNat_ofNat_valid _ (Or.inl (by omega))

theorem pyLower_eq_self (c : Char) (h : ¬ (65 ≤ c.toNat ∧ c.toNat ≤ 90)) :
    pyLower c = c := by
  unfold pyLower
  rw [if_neg h]

theorem pyLower_pyLower (c : Char) : pyLower (pyLower c) = pyLower c := by
  by_cases h : 65 ≤ c.toNat ∧ c.toNat ≤ 90
  · refine pyLower_eq_self _ ?_
    rw [toNat_pyLower_upper c h.1 h.2]
    omega
  · rw [pyLower_eq_self c h, pyLower_eq_self c h]

theorem isAsciiAlpha_pyLower (c : Char) (h : isAsciiAlpha c = true) :
    isAsciiAlpha (pyLower c) = true := by
  simp only [isAsciiAlpha, decide_eq_true_eq, Bool.or_eq_true] at h ⊢
  rcases h with h | h
  · right
    rw [toNat_pyLower_upper c h.1 h.2]
    omega
  · rw [pyLower_eq_self c (by omega)]
    right
    exact h

theorem schemeChar_pyLower (c : Char) (h : schemeChar c = true) :
    schemeChar (pyLower c) = true := by
  by_cases hu : 65 ≤ c.toNat ∧ c.toNat ≤ 90
  · have ht := toNat_pyLower_upper c hu.1 hu.2
    simp only [schemeChar, isAsciiAlpha, decide_eq_true_eq,
      Bool.or_eq_true]
    left; right
    simp only [Char.toNat] at ht hu ⊢
    omega
  · rw [pyLower_eq_self c hu]
    exact h

theorem schemeChar_ne (c : Char) (h : schemeChar c = true) (d : Char)
    (hd : schemeChar d = false) : c ≠ d := by
  intro hcontra
  subst hcontra
  rw [h] at hd
  exact Bool.noConfusion hd

/-! List helper lemmas for the parser proofs. -/

theorem takeWhile_append_cons {p : Char → Bool} (l1 : List Char)
    (b : Char) (l2 : List Char) (h1 : ∀ a ∈ l1, p a = true)
    (h2 : p b = false) :
    (l1 ++ b :: l2).takeWhile p = l1 := by
  induction l1 with
  | nil => simp [List.takeWhile, h2]
  | cons x xs ih =>
    simp only [List.cons_append, List.takeWhile]
    rw [h1 x (List.mem_cons_self _ _)]
    simp only [List.cons.injEq, true_and]
    exact ih (fun a ha => h1 a (List.mem_cons_of_mem _ ha))

theorem dropWhile_append_cons {p : Char → Bool} (l1 : List Char)
    (b : Char) (l2 : List Char) (h1 : ∀ a ∈ l1, p a = true)
    (h2 : p b = false) :
    (l1 ++ b :: l2).dropWhile p = b :: l2 := by
  induction l1 with
  | nil => simp [List.dropWhile, h2]
  | cons x xs ih =>
    simp only [List.cons_append, List.dropWhile]
    rw [h1 x (List.mem_cons_self _ _)]
    exact ih (fun a ha => h1 a (List.mem_cons_of_mem _ ha))

theorem takeWhile_eq_self {p : Char → Bool} (l : List Char)
    (h : ∀ a ∈ l, p a = true) : l.takeWhile p = l := by
  induction l with
  | nil => rfl
  | cons x xs ih =>
    simp only [List.takeWhile]
    rw [h x (List.mem_cons_self _ _)]
    simp only [List.cons.injEq, true_and]
    exact ih (fun a ha => h a (List.mem_cons_of_mem _ ha))

theorem dropWhile_eq_nil {p : Char → Bool} (l : List Char)
    (h : ∀ a ∈ l, p a = true) : l.dropWhile p = [] := by
  induction l with
  | nil => rfl
  | cons x xs ih =>
    simp only [List.dropWhile]
    rw [h x (List.mem_cons_self _ _)]
    exact ih (fun a ha => h a (List.mem_cons_of_mem _ ha))

theorem mem_of_mem_takeWhile {p : Char → Bool} {l : List Char} {a : Char}
    (h : a ∈ l.takeWhile p) : a ∈ l :=
  (List.takeWhile_sublist p).subset h

theorem prop_of_mem_takeWhile {p : Char → Bool} {l : List Char} {a : Char}
    (h : a ∈ l.takeWhile p) : p a = true := by
  induction l with
  | nil => exact absurd h (List.not_mem_nil a)
  | cons x xs ih =>
    simp only [List.takeWhile] at h
    by_cases hp : p x = true
    · rw [hp] at h
      simp only [List.mem_cons] at h
      rcases h with h | h
      · subst h; exact hp
      · exact ih h
    · rw [Bool.not_eq_true] at hp
      rw [hp] at h
      exact absurd h (List.not_mem_nil a)

/-! ### `result.rstrip("/")` -/

def isSlash (c : Char) : Bool := c = '/'

/-- Python `s.rstrip("/")`. -/
def rstripSlash (l : List Char) : List Char :=
  (l.reverse.dropWhile isSlash).reverse

theorem dropWhile_head_false {p : Char → Bool} {l : List Char} {c : Char}
    {t : List Char} (h : l.dropWhile p = c :: t) : p c = false := by
  induction l with
  | nil => exact absurd h (by simp)
  | cons x xs ih =>
    simp only [List.dropWhile] at h
    by_cases hp : p x = true
    · rw [hp] at h
      exact ih h
    · rw [Bool.not_eq_true] at hp
      rw [hp] at h
      cases h
      exact hp

theorem dropWhile_append_of_ne_nil {p : Char → Bool} (x y : List Char)
    (h : x.dropWhile p ≠ []) :
    (x ++ y).dropWhile p = x.dropWhile p ++ y := by
  induction x with
  | nil => exact absurd rfl h
  | cons a x' ih =>
    simp only [List.cons_append, List.dropWhile]
    by_cases hp : p a = true
    · rw [hp]
      simp only [List.dropWhile, hp] at h
      exact ih h
    · rw [Bool.not_eq_true] at hp
      rw [hp]
      simp only [List.dropWhile, hp]
      rfl

theorem dropWhile_append_of_all {p : Char → Bool} (x y : List Char)
    (h : ∀ a ∈ x, p a = true) :
    (x ++ y).dropWhile p = y.dropWhile p := by
  induction x with
  | nil => rfl
  | cons a x' ih =>
    simp only [List.cons_append, List.dropWhile]
    rw [h a (List.mem_cons_self _ _)]
    exact ih (fun a ha => h a (List.mem_cons_of_mem _ ha))

theorem rstripSlash_eq_nil_iff (l : List Char) :
    rstripSlash l = [] ↔ ∀ c ∈ l, isSlash c = true := by
  unfold rstripSlash
  rw [List.reverse_eq_nil_iff]
  constructor
  · intro h c hc
    by_contra hcontra
    rw [Bool.not_eq_true] at hcontra
    have : c ∈ l.reverse.dropWhile isSlash := by
      by_contra hnm
      have := List.takeWhile_append_dropWhile (p := isSlash)
        (l := l.reverse)
      have hcm : c ∈ l.reverse := List.mem_reverse.mpr hc
      rw [← this] at hcm
      rcases List.mem_append.mp hcm with hh | hh
      · exact absurd (prop_of_mem_takeWhile hh) (by rw [hcontra]; simp)
      · exact hnm hh
    rw [h] at this
    exact absurd this (List.not_mem_nil c)
  · intro h
    exact dropWhile_eq_nil _ (fun a ha => h a (List.mem_reverse.mp ha))

theorem rstripSlash_append_right (A B : List Char)
    (h : rstripSlash B ≠ []) :
    rstripSlash (A ++ B) = A ++ rstripSlash B := by
  unfold rstripSlash at h ⊢
  rw [List.reverse_append]
  rw [dropWhile_append_of_ne_nil _ _ (fun hc => h (by rw [hc]; rfl))]
  rw [List.reverse_append, List.reverse_reverse]

theorem rstripSlash_append_left (A B : List Char)
    (h : rstripSlash B = []) :
    rstripSlash (A ++ B) = rstripSlash A := by
  unfold rstripSlash
  rw [List.reverse_append]
  rw [dropWhile_append_of_all]
  intro a ha
  rw [rstripSlash_eq_nil_iff] at h
  exact h a (List.mem_reverse.mp ha)

theorem rstripSlash_last_not_slash (l : List Char)
    (h : rstripSlash l ≠ []) :
    ∃ B c, rstripSlash l = B ++ [c] ∧ isSlash c = false := by
  unfold rstripSlash at h ⊢
  match hd : l.reverse.dropWhile isSlash with
  | [] => rw [hd] at h; exact absurd rfl h
  | c :: t =>
    refine ⟨t.reverse, c, by simp, ?_⟩
    exact dropWhile_head_false hd

theorem rstripSlash_concat_not_slash (B : List Char) (c : Char)
    (h : isSlash c = false) : rstripSlash (B ++ [c]) = B ++ [c] := by
  unfold rstripSlash
  rw [List.reverse_append]
  simp only [List.reverse_cons, List.reverse_nil, List.nil_append,
    List.singleton_append, List.dropWhile]
  rw [h]
  simp

theorem rstripSlash_decomp (l : List Char) :
    l = rstripSlash l ++ (l.reverse.takeWhile isSlash).reverse := by
  unfold rstripSlash
  rw [← List.reverse_append, List.takeWhile_append_dropWhile,
    List.reverse_reverse]

theorem mem_rstripSlash {l : List Char} {a : Char}
    (h : a ∈ rstripSlash l) : a ∈ l := by
  unfold rstripSlash at h
  rw [List.mem_reverse] at h
  exact List.mem_reverse.mp ((List.dropWhile_sublist _).subset h)

theorem rstripSlash_head {t : List Char} {c : Char}
    (h : rstripSlash (c :: t) ≠ []) :
    ∃ t', rstripSlash (c :: t) = c :: t' := by
  have hdec := rstripSlash_decomp (c :: t)
  match hm : rstripSlash (c :: t) with
  | [] => exact absurd hm h
  | x :: r =>
    rw [hm] at hdec
    simp only [List.cons_append, List.cons.injEq] at hdec
    exact ⟨r, by rw [hdec.1]⟩

theorem rstripSlash_idem (l : List Char) :
    rstripSlash (rstripSlash l) = rstripSlash l := by
  by_cases h : rstripSlash l = []
  · rw [h]
    rfl
  · obtain ⟨B, c, hBc, hc⟩ := rstripSlash_last_not_slash l h
    rw [hBc, rstripSlash_concat_not_slash B c hc]

theorem rstripSlash_append_end (B : List Char) (c : Char) (X : List Char)
    (hc : isSlash c = false) :
    rstripSlash ((B ++ [c]) ++ X) = (B ++ [c]) ++ rstripSlash X := by
  by_cases h : rstripSlash X = []
  · rw [rstripSlash_append_left _ _ h, h, List.append_nil,
      rstripSlash_concat_not_slash B c hc]
  · rw [rstripSlash_append_right _ _ h]

/-! ### `urlsplit` / `urlparse` -/

/-- The five fields of CPython's `SplitResult`. -/
structure PySplit where
  scheme : List Char
  netloc : List Char
  path : List Char
  query : List Char
  fragment : List Char
deriving Repr, DecidableEq

/-- The six fields of CPython's `ParseResult`. -/
structure PyParsed where
  scheme : List Char
  netloc : List Char
  path : List Char
  params : List Char
  query : List Char
  fragment : List Char
deriving Repr, DecidableEq

/-- `url.lstrip(_WHATWG_C0_CONTROL_OR_SPACE)` — strip leading C0 control
characters and spaces (code points `≤ 0x20`). -/
def lstripC0 (l : List Char) : List Char :=
  l.dropWhile (fun c => c.toNat ≤ 32)

/-- `for b in _UNSAFE_URL_BYTES_TO_REMOVE: url = url.replace(b, "")` —
the removal of tab, CR and LF. -/
def removeTabCrLf (l : List Char) : List Char :=
  l.filter (fun c => ¬ (c = '\t' ∨ c = '\r' ∨ c = '\n'))

def notColon (c : Char) : Bool := c ≠ ':'

/-- The scheme-extraction step of `urlsplit`: `i = url.find(':')`; if
`i > 0 and url[0].isascii() and url[0].isalpha()` and every character of
`url[:i]` is in `scheme_chars`, then
`scheme, url = url[:i].lower(), url[i+1:]`. -/
def splitScheme (l : List Char) : List Char × List Char :=
  match l.dropWhile notColon, l.takeWhile notColon with
  | _ :: tail, c0 :: pre' =>
    -- the head of `l.dropWhile notColon` is necessarily the first `':'`
    if isAsciiAlpha c0 ∧ (c0 :: pre').all schemeChar then
      ((c0 :: pre').map pyLower, tail)
    else ([], l)
  | _, _ => ([], l)

def netlocDelim (c : Char) : Bool := c = '/' ∨ c = '?' ∨ c = '#'

/-- `if url[:2] == '//': netloc, url = _splitnetloc(url, 2)` together
with the bracket handling: mismatched brackets raise `ValueError`
(`none`, faithful), and a netloc with matched brackets goes through
`_check_bracketed_host` (IP-literal validation), which is outside the
modelled fragment and also maps to `none`. -/
def splitNetloc (l : List Char) : Option (List Char × List Char) :=
  if l.take 2 = ['/', '/'] then
    let rest := l.drop 2
    let n := rest.takeWhile (fun c => ¬ netlocDelim c)
    let r := rest.dropWhile (fun c => ¬ netlocDelim c)
    if '[' ∈ n ∨ ']' ∈ n then none
    else some (n, r)
  else some ([], l)

/-- `url.split(ch, 1)` for a `ch` known to occur in `url`. -/
def splitOnFirst (ch : Char) (l : List Char) : List Char × List Char :=
  (l.takeWhile (fun c => c ≠ ch), (l.dropWhile (fun c => c ≠ ch)).tail)

/-- `if allow_fragments and '#' in url: url, fragment = url.split('#', 1)`. -/
def fqOf (r : List Char) : List Char × List Char :=
  if '#' ∈ r then splitOnFirst '#' r else (r, [])

/-- `if '?' in url: url, query = url.split('?', 1)` (after the fragment
split). -/
def pqOf (r : List Char) : List Char × List Char :=
  if '?' ∈ (fqOf r).1 then splitOnFirst '?' (fqOf r).1 else ((fqOf r).1, [])

/-- `urlsplit(url)` (CPython 3.11, `allow_fragments=True`, default
scheme `''`).  `none` models a raised `ValueError`; a non-empty
non-ASCII netloc is outside the modelled fragment (CPython runs an
NFKC-based check there) and also maps to `none`. -/
def pyUrlsplit (url0 : List Char) : Option PySplit :=
  let url1 := removeTabCrLf (lstripC0 url0)
  let s := splitScheme url1
  match splitNetloc s.2 with
  | none => none
  | some nr =>
    if nr.1 ≠ [] ∧ ¬ nr.1.all (fun c => c.toNat ≤ 127) then none
    else some ⟨s.1, nr.1, (pqOf nr.2).1, (pqOf nr.2).2, (fqOf nr.2).2⟩

/-- CPython's `uses_params` list. -/
def usesParams : List (List Char) :=
  [[], "ftp".data, "hdl".data, "prospero".data, "http".data,
   "imap".data, "https".data, "shttp".data, "rtsp".data, "rtspu".data,
   "sip".data, "sips".data, "mms".data, "sftp".data, "tel".data]

/-- `_splitparams(url)`: find `';'` starting at `url.rfind('/')` (or from
the start when there is no `'/'`), split there.  The last branch is
CPython's `url[:-1], url[0:]` quirk when `find` returns `-1` without a
slash — unreachable from `urlparse`, which guards on `';' in url`. -/
def pySplitparams (l : List Char) : List Char × List Char :=
  if '/' ∈ l then
    let b := (l.reverse.takeWhile (fun c => c ≠ '/')).reverse
    let a := l.take (l.length - b.length)
    if ';' ∈ b then
      (a ++ b.takeWhile (fun c => c ≠ ';'),
        (b.dropWhile (fun c => c ≠ ';')).tail)
    else (l, [])
  else
    if ';' ∈ l then
      (l.takeWhile (fun c => c ≠ ';'), (l.dropWhile (fun c => c ≠ ';')).tail)
    else (l.take (l.length - 1), l)

/-- `urlparse(url)` (CPython 3.11): `urlsplit` plus the params split when
`scheme in uses_params and ';' in path`. -/
def pyUrlparse (l : List Char) : Option PyParsed :=
  match pyUrlsplit l with
  | none => none
  | some s =>
    if s.scheme ∈ usesParams ∧ ';' ∈ s.path then
      let pr := pySplitparams s.path
      some ⟨s.scheme, s.netloc, pr.1, pr.2, s.query, s.fragment⟩
    else some ⟨s.scheme, s.netloc, s.path, [], s.query, s.fragment⟩

/-- `normalize_url(url)` from `tools/crawl_tool.py` with the default
`base=None`, `rules=None` (the join branch is skipped when `base` is
`None`, and `rules` is never used by the function body):
rebuild `f"{scheme}://{netloc}{path}"` plus `"?" + query` when the query
is non-empty, then `result.rstrip("/") or result + "/"`.  A `ValueError`
raised by `urlparse` propagates (`none`). -/
def normalize_url (u : String) : Option String :=
  match pyUrlparse u.data with
  | none => none
  | some p =>
    let result := p.scheme ++ (':' :: '/' :: '/' :: p.netloc) ++ p.path ++
      (if p.query ≠ [] then '?' :: p.query else [])
    let r := rstripSlash result
    some ⟨if r ≠ [] then r else result ++ ['/']⟩

/-- The path that `normalize_url`'s rebuilt string carries into the
reparse: the parsed path itself when a query is appended after it, and
its slash-stripped form when the query is empty (the `rstrip("/")` then
reaches into the path). -/
def pathUsed (P : PyParsed) : List Char :=
  if P.query = [] then rstripSlash P.path else P.path

/-! ## Claim C7: normalization idempotence -/

/-- C7 counterexample: `normalize_url` is not idempotent.  For
`u = "http://e.com?/"` the first pass keeps the all-slash query and
strips its trailing slash, producing `"http://e.com?"`; reparsing that
string yields an *empty* query, so the second pass drops the `"?"` and
returns `"http://e.com"` — `normalize(normalize(u)) ≠ normalize(u)`. -/
theorem c7_counterexample :
    normalize_url "http://e.com?/" = some "http://e.com?" ∧
    normalize_url "http://e.com?" = some "http://e.com" ∧
    ¬ ((normalize_url "http://e.com?/").bind normalize_url
        = normalize_url "http://e.com?/") := by decide

/-! ### Invariants of a successful parse -/

/-- Structural facts that hold of every `some` result of `pyUrlsplit`. -/
structure SplitInv (s : PySplit) : Prop where
  scheme_chars : ∀ c ∈ s.scheme, schemeChar c = true
  scheme_low : s.scheme.map pyLower = s.scheme
  scheme_head : ∀ c0 t, s.scheme = c0 :: t → isAsciiAlpha c0 = true
  netloc_delim : ∀ c ∈ s.netloc, netlocDelim c = false
  netloc_lb : '[' ∉ s.netloc
  netloc_rb : ']' ∉ s.netloc
  netloc_ascii : s.netloc ≠ [] →
    s.netloc.all (fun c => c.toNat ≤ 127) = true
  path_hash : '#' ∉ s.path
  path_qm : '?' ∉ s.path
  query_hash : '#' ∉ s.query
  path_head : s.netloc ≠ [] → s.path = [] ∨ ∃ t, s.path = '/' :: t
  clean : ∀ c ∈ s.netloc ++ s.path ++ s.query,
    ¬ (c = '\t' ∨ c = '\r' ∨ c = '\n')

theorem splitScheme_scheme_inv (l : List Char) :
    (∀ c ∈ (splitScheme l).1, schemeChar c = true) ∧
    ((splitScheme l).1.map pyLower = (splitScheme l).1) ∧
    (∀ c0 t, (splitScheme l).1 = c0 :: t → isAsciiAlpha c0 = true) := by
  unfold splitScheme
  split
  · split
    · rename_i hguard
      refine ⟨?_, ?_, ?_⟩
      · intro c hc
        obtain ⟨a, ha, rfl⟩ := List.mem_map.mp hc
        exact schemeChar_pyLower a
          (List.all_eq_true.mp hguard.2 a ha)
      · rw [List.map_map]
        refine List.map_congr_left ?_
        intro a ha
        exact pyLower_pyLower a
      · intro c0 t h
        simp only [List.map_cons, List.cons.injEq] at h
        rw [← h.1]
        exact isAsciiAlpha_pyLower _ hguard.1
    · exact ⟨fun c hc => absurd hc (List.not_mem_nil c), rfl,
        fun c0 t h => absurd h (by simp)⟩
  · exact ⟨fun c hc => absurd hc (List.not_mem_nil c), rfl,
      fun c0 t h => absurd h (by simp)⟩

theorem splitScheme_rest_sub (l : List Char) :
    ∀ c ∈ (splitScheme l).2, c ∈ l := by
  unfold splitScheme
  split
  · rename_i x tail c0 pre hdrop htake
    split
    · intro c hc
      have hx : c ∈ x :: tail := List.mem_cons_of_mem _ hc
      rw [← hdrop] at hx
      exact (List.dropWhile_sublist _).subset hx
    · exact fun c hc => hc
  · exact fun c hc => hc

theorem splitNetloc_inv (l : List Char) (n r : List Char)
    (h : splitNetloc l = some (n, r)) :
    (∀ c ∈ n, netlocDelim c = false) ∧ '[' ∉ n ∧ ']' ∉ n ∧
    (∀ c ∈ n, c ∈ l) ∧ (∀ c ∈ r, c ∈ l) ∧
    (n ≠ [] → r = [] ∨ ∃ c t, r = c :: t ∧ netlocDelim c = true) ∧
    (n = [] → r = l ∨ (∃ rest, l = '/' :: '/' :: rest)) := by
  unfold splitNetloc at h
  split at h
  · rename_i htake2
    have hl : l = '/' :: '/' :: l.drop 2 := by
      have hsp := (List.take_append_drop 2 l).symm
      rw [htake2] at hsp
      exact hsp
    dsimp only at h
    split at h
    · exact absurd h (by simp)
    · rename_i hbr
      simp only [Option.some.injEq, Prod.mk.injEq] at h
      obtain ⟨hn, hr⟩ := h
      subst hn
      subst hr
      push_neg at hbr
      refine ⟨?_, hbr.1, hbr.2, ?_, ?_, ?_, ?_⟩
      · intro c hc
        have h1 := prop_of_mem_takeWhile hc
        simpa using h1
      · intro c hc
        exact (List.drop_sublist 2 l).subset (mem_of_mem_takeWhile hc)
      · intro c hc
        exact (List.drop_sublist 2 l).subset
          ((List.dropWhile_sublist _).subset hc)
      · intro hne
        match hd : (l.drop 2).dropWhile (fun c => ¬ netlocDelim c) with
        | [] => exact Or.inl rfl
        | c :: t =>
          refine Or.inr ⟨c, t, rfl, ?_⟩
          have := dropWhile_head_false hd
          simpa using this
      · intro _
        exact Or.inr ⟨l.drop 2, hl⟩
  · rename_i hns
    simp only [Option.some.injEq, Prod.mk.injEq] at h
    obtain ⟨hn, hr⟩ := h
    subst hn
    subst hr
    exact ⟨fun c hc => absurd hc (List.not_mem_nil c),
      List.not_mem_nil _, List.not_mem_nil _,
      fun c hc => absurd hc (List.not_mem_nil c),
      fun c hc => hc,
      fun hne => absurd rfl hne,
      fun _ => Or.inl rfl⟩

theorem mem_of_mem_tail {a : Char} {l : List Char} (h : a ∈ l.tail) :
    a ∈ l :=
  (List.tail_sublist l).subset h

theorem fqOf_fst_sub (r : List Char) : ∀ c ∈ (fqOf r).1, c ∈ r := by
  unfold fqOf
  split
  · intro c hc
    exact mem_of_mem_takeWhile hc
  · exact fun c hc => hc

theorem fqOf_snd_sub (r : List Char) : ∀ c ∈ (fqOf r).2, c ∈ r := by
  unfold fqOf
  split
  · intro c hc
    simp only [splitOnFirst] at hc
    exact (List.dropWhile_sublist _).subset (mem_of_mem_tail hc)
  · intro c hc
    exact absurd hc (List.not_mem_nil c)

theorem fqOf_fst_hash (r : List Char) : '#' ∉ (fqOf r).1 := by
  unfold fqOf
  split
  · intro hc
    have := prop_of_mem_takeWhile hc
    simp at this
  · rename_i hno
    exact hno

theorem pqOf_fst_sub (r : List Char) : ∀ c ∈ (pqOf r).1, c ∈ (fqOf r).1
    := by
  unfold pqOf
  split
  · intro c hc
    exact mem_of_mem_takeWhile hc
  · exact fun c hc => hc

theorem pqOf_snd_sub (r : List Char) : ∀ c ∈ (pqOf r).2, c ∈ (fqOf r).1
    := by
  unfold pqOf
  split
  · intro c hc
    simp only [splitOnFirst] at hc
    exact (List.dropWhile_sublist _).subset (mem_of_mem_tail hc)
  · intro c hc
    exact absurd hc (List.not_mem_nil c)

theorem pqOf_fst_qm (r : List Char) : '?' ∉ (pqOf r).1 := by
  unfold pqOf
  split
  · intro hc
    have := prop_of_mem_takeWhile hc
    simp at this
  · rename_i hno
    exact hno

theorem takeWhile_cons_of_pos {p : Char → Bool} {c : Char}
    (t : List Char) (h : p c = true) :
    (c :: t).takeWhile p = c :: t.takeWhile p := by
  simp only [List.takeWhile, h]

theorem takeWhile_cons_of_neg {p : Char → Bool} {c : Char}
    (t : List Char) (h : p c = false) :
    (c :: t).takeWhile p = [] := by
  simp only [List.takeWhile, h]

theorem pqOf_fst_nil : (pqOf []).1 = [] := by decide

theorem pqOf_fst_slash (t : List Char) :
    (pqOf ('/' :: t)).1 = [] ∨ ∃ t', (pqOf ('/' :: t)).1 = '/' :: t'
    := by
  right
  unfold pqOf fqOf
  by_cases hh : '#' ∈ ('/' :: t)
  · rw [if_pos hh]
    simp only [splitOnFirst]
    rw [takeWhile_cons_of_pos _ (by decide)]
    by_cases hq : '?' ∈ ('/' :: t.takeWhile (fun c => c ≠ '#'))
    · rw [if_pos hq]
      simp only [splitOnFirst]
      rw [takeWhile_cons_of_pos _ (by decide)]
      exact ⟨_, rfl⟩
    · rw [if_neg hq]
      exact ⟨_, rfl⟩
  · rw [if_neg hh]
    by_cases hq : '?' ∈ ('/' :: t)
    · rw [if_pos hq]
      simp only [splitOnFirst]
      rw [takeWhile_cons_of_pos _ (by decide)]
      exact ⟨_, rfl⟩
    · rw [if_neg hq]
      exact ⟨_, rfl⟩

theorem pqOf_fst_question (t : List Char) : (pqOf ('?' :: t)).1 = [] := by
  unfold pqOf fqOf
  by_cases hh : '#' ∈ ('?' :: t)
  · rw [if_pos hh]
    simp only [splitOnFirst]
    rw [takeWhile_cons_of_pos _ (by decide)]
    rw [if_pos (List.mem_cons_self _ _)]
    simp only [splitOnFirst]
    rw [takeWhile_cons_of_neg _ (by decide)]
  · rw [if_neg hh]
    rw [if_pos (List.mem_cons_self _ _)]
    simp only [splitOnFirst]
    rw [takeWhile_cons_of_neg _ (by decide)]

theorem pqOf_fst_hash_head (t : List Char) : (pqOf ('#' :: t)).1 = []
    := by
  unfold pqOf fqOf
  rw [if_pos (List.mem_cons_self _ _)]
  simp only [splitOnFirst]
  rw [takeWhile_cons_of_neg _ (by decide)]
  rw [if_neg (List.not_mem_nil _)]

theorem pyUrlsplit_inv (l : List Char) (s : PySplit)
    (h : pyUrlsplit l = some s) : SplitInv s := by
  unfold pyUrlsplit at h
  dsimp only at h
  split at h
  · exact absurd h (by simp)
  · rename_i x nr hnr
    split at h
    · exact absurd h (by simp)
    · rename_i hguard
      simp only [Option.some.injEq] at h
      subst h
      obtain ⟨hnd, hnlb, hnrb, hnsub, hrsub, hrhead, _⟩ :=
        splitNetloc_inv _ nr.1 nr.2 hnr
      obtain ⟨hsc, hslow, hshead⟩ :=
        splitScheme_scheme_inv (removeTabCrLf (lstripC0 l))
      have hcleanU : ∀ c ∈ removeTabCrLf (lstripC0 l),
          ¬ (c = '\t' ∨ c = '\r' ∨ c = '\n') := by
        intro c hc
        have := (List.mem_filter.mp hc).2
        simpa using this
      have hrl : ∀ c ∈ nr.2, c ∈ removeTabCrLf (lstripC0 l) :=
        fun c hc => splitScheme_rest_sub _ c (hrsub c hc)
      have hnl : ∀ c ∈ nr.1, c ∈ removeTabCrLf (lstripC0 l) :=
        fun c hc => splitScheme_rest_sub _ c (hnsub c hc)
      refine ⟨hsc, hslow, hshead, hnd, hnlb, hnrb, ?_, ?_, ?_, ?_, ?_,
        ?_⟩
      · intro hne
        rcases not_and_or.mp hguard with hg | hg
        · exact absurd hne (by simpa using hg)
        · simpa using hg
      · exact fun hc => fqOf_fst_hash nr.2 (pqOf_fst_sub nr.2 '#' hc)
      · exact pqOf_fst_qm nr.2
      · exact fun hc => fqOf_fst_hash nr.2 (pqOf_snd_sub nr.2 '#' hc)
      · intro hne
        rcases hrhead hne with hr0 | ⟨c, t, hrct, hcd⟩
        · left
          rw [hr0]
          exact pqOf_fst_nil
        · simp only [netlocDelim, decide_eq_true_eq] at hcd
          rcases hcd with hcd | hcd | hcd
          · subst hcd
            rw [hrct]
            exact pqOf_fst_slash t
          · subst hcd
            rw [hrct]
            exact Or.inl (pqOf_fst_question t)
          · subst hcd
            rw [hrct]
            exact Or.inl (pqOf_fst_hash_head t)
      · intro c hc
        rcases List.mem_append.mp hc with hc | hc
        · rcases List.mem_append.mp hc with hc | hc
          · exact hcleanU c (hnl c hc)
          · exact hcleanU c
              (hrl c (fqOf_fst_sub nr.2 c (pqOf_fst_sub nr.2 c hc)))
        · exact hcleanU c
            (hrl c (fqOf_fst_sub nr.2 c (pqOf_snd_sub nr.2 c hc)))

theorem mem_of_mem_rev_takeWhile {p : Char → Bool} {l : List Char}
    {a : Char} (h : a ∈ (l.reverse.takeWhile p).reverse) : a ∈ l := by
  rw [List.mem_reverse] at h
  exact List.mem_reverse.mp (mem_of_mem_takeWhile h)

theorem pySplitparams_fst_sub (l : List Char) :
    ∀ c ∈ (pySplitparams l).1, c ∈ l := by
  unfold pySplitparams
  dsimp only
  split_ifs with h1 h2 h3
  · intro c hc
    rcases List.mem_append.mp hc with hc | hc
    · exact List.take_subset _ _ hc
    · exact mem_of_mem_rev_takeWhile (mem_of_mem_takeWhile hc)
  · exact fun c hc => hc
  · intro c hc
    exact mem_of_mem_takeWhile hc
  · exact fun c hc => List.take_subset _ _ hc

theorem takeWhile_ne_length_lt (c : Char) (l : List Char) (h : c ∈ l) :
    (l.takeWhile (fun x => x ≠ c)).length < l.length := by
  induction l with
  | nil => exact absurd h (List.not_mem_nil c)
  | cons a t ih =>
    by_cases ha : a = c
    · subst ha
      rw [takeWhile_cons_of_neg _ (by simp)]
      simp
    · rw [takeWhile_cons_of_pos _ (by simp [ha])]
      simp only [List.length_cons]
      have hct : c ∈ t := by
        rcases List.mem_cons.mp h with hh | hh
        · exact absurd hh.symm ha
        · exact hh
      exact Nat.succ_lt_succ (ih hct)

theorem pySplitparams_fst_slash (t : List Char) :
    ∃ t', (pySplitparams ('/' :: t)).1 = '/' :: t' := by
  unfold pySplitparams
  rw [if_pos (List.mem_cons_self _ _)]
  have hblen : (('/' :: t).reverse.takeWhile
      (fun c => c ≠ '/')).reverse.length < ('/' :: t).length := by
    rw [List.length_reverse]
    have := takeWhile_ne_length_lt '/' ('/' :: t).reverse
      (List.mem_reverse.mpr (List.mem_cons_self _ _))
    simpa using this
  obtain ⟨m, hm⟩ : ∃ m, ('/' :: t).length - (('/' :: t).reverse.takeWhile
      (fun c => c ≠ '/')).reverse.length = m + 1 :=
    ⟨_, (Nat.succ_pred_eq_of_pos (by omega)).symm⟩
  dsimp only
  split_ifs with h2
  · rw [hm]
    simp only [List.take_succ_cons]
    exact ⟨_, rfl⟩
  · exact ⟨t, rfl⟩

/-- Inversion of `pyUrlparse`: the split result and how the parsed path
relates to it. -/
theorem pyUrlparse_cases (l : List Char) (P : PyParsed)
    (h : pyUrlparse l = some P) :
    ∃ s : PySplit, pyUrlsplit l = some s ∧ P.scheme = s.scheme ∧
      P.netloc = s.netloc ∧ P.query = s.query ∧
      (P.path = s.path ∨ P.path = (pySplitparams s.path).1) := by
  unfold pyUrlparse at h
  split at h
  · exact absurd h (by simp)
  · rename_i x s hs
    split at h
    · simp only [Option.some.injEq] at h
      subst h
      exact ⟨s, hs, rfl, rfl, rfl, Or.inr rfl⟩
    · simp only [Option.some.injEq] at h
      subst h
      exact ⟨s, hs, rfl, rfl, rfl, Or.inl rfl⟩

/-! ### Reparsing a rebuilt URL -/

theorem notColon_of_schemeChar (c : Char) (h : schemeChar c = true) :
    notColon c = true := by
  simp only [notColon, decide_eq_true_eq]
  exact schemeChar_ne c h ':' (by decide)

theorem schemeChar_not_ctl (c : Char) (h : schemeChar c = true) :
    ¬ (c = '\t' ∨ c = '\r' ∨ c = '\n') := by
  intro hc
  rcases hc with hc | hc | hc
  · exact schemeChar_ne c h '\t' (by decide) hc
  · exact schemeChar_ne c h '\r' (by decide) hc
  · exact schemeChar_ne c h '\n' (by decide) hc

theorem splitScheme_rebuild (c0 : Char) (S' rest' : List Char)
    (hAlpha : isAsciiAlpha c0 = true)
    (hS : ∀ c ∈ c0 :: S', schemeChar c = true)
    (hLow : (c0 :: S').map pyLower = c0 :: S') :
    splitScheme ((c0 :: S') ++ ':' :: rest') = (c0 :: S', rest') := by
  have hnc : ∀ a ∈ c0 :: S', notColon a = true :=
    fun a ha => notColon_of_schemeChar a (hS a ha)
  have hdw : ((c0 :: S') ++ ':' :: rest').dropWhile notColon
      = ':' :: rest' := dropWhile_append_cons _ _ _ hnc (by decide)
  have htw : ((c0 :: S') ++ ':' :: rest').takeWhile notColon
      = c0 :: S' := takeWhile_append_cons _ _ _ hnc (by decide)
  unfold splitScheme
  rw [hdw, htw]
  dsimp only
  rw [if_pos ⟨hAlpha, List.all_eq_true.mpr hS⟩]
  rw [hLow]

theorem netloc_tail_take (N R : List Char)
    (hN : ∀ c ∈ N, netlocDelim c = false)
    (hhead : R = [] ∨ ∃ c t, R = c :: t ∧ netlocDelim c = true) :
    (N ++ R).takeWhile (fun c => ¬ netlocDelim c) = N ∧
    (N ++ R).dropWhile (fun c => ¬ netlocDelim c) = R := by
  have hNp : ∀ a ∈ N, (decide (¬ netlocDelim a = true)) = true := by
    intro a ha
    simp [hN a ha]
  rcases hhead with rfl | ⟨c, t, rfl, hcd⟩
  · rw [List.append_nil]
    exact ⟨takeWhile_eq_self _ hNp, dropWhile_eq_nil _ hNp⟩
  · constructor
    · exact takeWhile_append_cons _ _ _ hNp (by simp [hcd])
    · exact dropWhile_append_cons _ _ _ hNp (by simp [hcd])

theorem pyUrlsplit_rebuild (c0 : Char) (S' N PP Q : List Char)
    (hasQ : Bool)
    (hAlpha : isAsciiAlpha c0 = true)
    (hS : ∀ c ∈ c0 :: S', schemeChar c = true)
    (hLow : (c0 :: S').map pyLower = c0 :: S')
    (hN : ∀ c ∈ N, netlocDelim c = false)
    (hNlb : '[' ∉ N) (hNrb : ']' ∉ N)
    (hNa : N.all (fun c => c.toNat ≤ 127) = true)
    (hPP : PP = [] ∨ ∃ t, PP = '/' :: t)
    (hPPh : '#' ∉ PP) (hPPq : '?' ∉ PP)
    (hQh : '#' ∉ Q)
    (hclean : ∀ c ∈ N ++ PP ++ Q, ¬ (c = '\t' ∨ c = '\r' ∨ c = '\n')) :
    pyUrlsplit ((c0 :: S') ++ ':' :: '/' :: '/' ::
        (N ++ (PP ++ (if hasQ then '?' :: Q else [])))) =
      some ⟨c0 :: S', N, PP, if hasQ then Q else [], []⟩ := by
  have hc0gt : ¬ (c0.toNat ≤ 32) := by
    simp only [isAsciiAlpha, decide_eq_true_eq, Bool.or_eq_true] at hAlpha
    rcases hAlpha with h | h <;> omega
  have hlstrip : lstripC0 ((c0 :: S') ++ ':' :: '/' :: '/' ::
      (N ++ (PP ++ (if hasQ then '?' :: Q else [])))) =
      (c0 :: S') ++ ':' :: '/' :: '/' ::
        (N ++ (PP ++ (if hasQ then '?' :: Q else []))) := by
    unfold lstripC0
    simp only [List.cons_append, List.dropWhile]
    rw [decide_eq_false hc0gt]
    rfl
  have hclean2 : ∀ c ∈ (c0 :: S') ++ ':' :: '/' :: '/' ::
      (N ++ (PP ++ (if hasQ then '?' :: Q else []))),
      ¬ (c = '\t' ∨ c = '\r' ∨ c = '\n') := by
    intro c hc
    rcases List.mem_append.mp hc with hc | hc
    · exact schemeChar_not_ctl c (hS c hc)
    · rcases List.mem_cons.mp hc with rfl | hc
      · decide
      · rcases List.mem_cons.mp hc with rfl | hc
        · decide
        · rcases List.mem_cons.mp hc with rfl | hc
          · decide
          · rcases List.mem_append.mp hc with hc | hc
            · exact hclean c (by simp [hc])
            · rcases List.mem_append.mp hc with hc | hc
              · exact hclean c (by simp [hc])
              · split at hc
                · rcases List.mem_cons.mp hc with rfl | hc
                  · decide
                  · exact hclean c (by simp [hc])
                · exact absurd hc (List.not_mem_nil c)
  have hremove : removeTabCrLf ((c0 :: S') ++ ':' :: '/' :: '/' ::
      (N ++ (PP ++ (if hasQ then '?' :: Q else [])))) =
      (c0 :: S') ++ ':' :: '/' :: '/' ::
        (N ++ (PP ++ (if hasQ then '?' :: Q else []))) := by
    unfold removeTabCrLf
    rw [List.filter_eq_self]
    intro a ha
    simpa using hclean2 a ha
  have hhead : (PP ++ (if hasQ then '?' :: Q else [])) = [] ∨
      ∃ c t, (PP ++ (if hasQ then '?' :: Q else [])) = c :: t ∧
        netlocDelim c = true := by
    rcases hPP with rfl | ⟨t, rfl⟩
    · cases hasQ
      · exact Or.inl rfl
      · exact Or.inr ⟨'?', Q, rfl, by decide⟩
    · exact Or.inr ⟨'/', t ++ (if hasQ then '?' :: Q else []), rfl,
        by decide⟩
  obtain ⟨htk, hdr⟩ := netloc_tail_take N
    (PP ++ (if hasQ then '?' :: Q else [])) hN hhead
  have hnetloc : splitNetloc ('/' :: '/' ::
      (N ++ (PP ++ (if hasQ then '?' :: Q else [])))) =
      some (N, PP ++ (if hasQ then '?' :: Q else [])) := by
    unfold splitNetloc
    rw [if_pos (show (('/' :: '/' ::
      (N ++ (PP ++ (if hasQ then '?' :: Q else [])))).take 2
        = ['/', '/']) from rfl)]
    show (if '[' ∈ (N ++ (PP ++ (if hasQ then '?' :: Q
            else []))).takeWhile (fun c => ¬ netlocDelim c) ∨
          ']' ∈ (N ++ (PP ++ (if hasQ then '?' :: Q
            else []))).takeWhile (fun c => ¬ netlocDelim c) then none
        else some ((N ++ (PP ++ (if hasQ then '?' :: Q
            else []))).takeWhile (fun c => ¬ netlocDelim c),
          (N ++ (PP ++ (if hasQ then '?' :: Q
            else []))).dropWhile (fun c => ¬ netlocDelim c))) =
        some (N, PP ++ (if hasQ then '?' :: Q else []))
    rw [htk, hdr]
    rw [if_neg (by push_neg; exact ⟨hNlb, hNrb⟩)]
  have hnohash : '#' ∉ PP ++ (if hasQ then '?' :: Q else []) := by
    intro hc
    rcases List.mem_append.mp hc with hc | hc
    · exact hPPh hc
    · split at hc
      · rcases List.mem_cons.mp hc with hh | hh
        · exact absurd hh (by decide)
        · exact hQh hh
      · exact absurd hc (List.not_mem_nil _)
  have hfq : fqOf (PP ++ (if hasQ then '?' :: Q else [])) =
      (PP ++ (if hasQ then '?' :: Q else []), []) := by
    unfold fqOf
    rw [if_neg hnohash]
  have hppq : ∀ a ∈ PP, decide (a ≠ '?') = true := by
    intro a ha
    simp only [decide_eq_true_eq]
    intro hcontra
    exact hPPq (hcontra ▸ ha)
  have hpq : pqOf (PP ++ (if hasQ then '?' :: Q else [])) =
      (PP, if hasQ then Q else []) := by
    unfold pqOf
    rw [hfq]
    dsimp only
    cases hasQ
    · simp only [Bool.false_eq_true, if_false, List.append_nil]
      rw [if_neg hPPq]
    · simp only [if_true]
      rw [if_pos (by
        refine List.mem_append.mpr (Or.inr ?_)
        exact List.mem_cons_self _ _)]
      unfold splitOnFirst
      rw [takeWhile_append_cons _ _ _ hppq (by decide)]
      rw [dropWhile_append_cons _ _ _ hppq (by decide)]
      rfl
  unfold pyUrlsplit
  rw [hlstrip, hremove]
  dsimp only
  rw [splitScheme_rebuild c0 S' _ hAlpha hS hLow]
  dsimp only
  rw [hnetloc]
  dsimp only
  rw [if_neg (by
    intro hcontra
    rw [hNa] at hcontra
    simp at hcontra)]
  rw [hpq, hfq]

/-- Reparsing the rebuilt string with `urlparse`: the params split is
the identity under `hsemi`. -/
theorem pyUrlparse_rebuild (c0 : Char) (S' N PP Q : List Char)
    (hasQ : Bool)
    (hAlpha : isAsciiAlpha c0 = true)
    (hS : ∀ c ∈ c0 :: S', schemeChar c = true)
    (hLow : (c0 :: S').map pyLower = c0 :: S')
    (hN : ∀ c ∈ N, netlocDelim c = false)
    (hNlb : '[' ∉ N) (hNrb : ']' ∉ N)
    (hNa : N.all (fun c => c.toNat ≤ 127) = true)
    (hPP : PP = [] ∨ ∃ t, PP = '/' :: t)
    (hPPh : '#' ∉ PP) (hPPq : '?' ∉ PP)
    (hQh : '#' ∉ Q)
    (hclean : ∀ c ∈ N ++ PP ++ Q, ¬ (c = '\t' ∨ c = '\r' ∨ c = '\n'))
    (hsemi : ';' ∈ PP → pySplitparams PP = (PP, [])) :
    pyUrlparse ((c0 :: S') ++ ':' :: '/' :: '/' ::
        (N ++ (PP ++ (if hasQ then '?' :: Q else [])))) =
      some ⟨c0 :: S', N, PP, [], if hasQ then Q else [], []⟩ := by
  unfold pyUrlparse
  rw [pyUrlsplit_rebuild c0 S' N PP Q hasQ hAlpha hS hLow hN hNlb hNrb
    hNa hPP hPPh hPPq hQh hclean]
  dsimp only
  by_cases hc : (c0 :: S') ∈ usesParams ∧ ';' ∈ PP
  · rw [if_pos hc, hsemi hc.2]
  · rw [if_neg hc]

/-- The normal form produced by `normalize_url` is a fixed point of
`normalize_url`. -/
theorem normalize_url_fixpoint (c0 : Char) (S' N PP Q : List Char)
    (hasQ : Bool)
    (hAlpha : isAsciiAlpha c0 = true)
    (hS : ∀ c ∈ c0 :: S', schemeChar c = true)
    (hLow : (c0 :: S').map pyLower = c0 :: S')
    (hN : ∀ c ∈ N, netlocDelim c = false)
    (hNlb : '[' ∉ N) (hNrb : ']' ∉ N)
    (hNa : N.all (fun c => c.toNat ≤ 127) = true)
    (hPP : PP = [] ∨ ∃ t, PP = '/' :: t)
    (hPPh : '#' ∉ PP) (hPPq : '?' ∉ PP)
    (hQh : '#' ∉ Q)
    (hclean : ∀ c ∈ N ++ PP ++ Q, ¬ (c = '\t' ∨ c = '\r' ∨ c = '\n'))
    (hsemi : ';' ∈ PP → pySplitparams PP = (PP, []))
    (hQne : hasQ = true → Q ≠ [])
    (hQr : rstripSlash Q = Q)
    (hPPr : hasQ = false → rstripSlash PP = PP)
    (hNne : N ≠ []) :
    normalize_url ⟨(c0 :: S') ++ ':' :: '/' :: '/' ::
        (N ++ (PP ++ (if hasQ then '?' :: Q else [])))⟩ =
      some ⟨(c0 :: S') ++ ':' :: '/' :: '/' ::
        (N ++ (PP ++ (if hasQ then '?' :: Q else [])))⟩ := by
  cases hasQ with
  | true =>
    have hQne' : Q ≠ [] := hQne rfl
    have hparse : pyUrlparse ((c0 :: S') ++ ':' :: '/' :: '/' ::
        (N ++ (PP ++ '?' :: Q))) = some ⟨c0 :: S', N, PP, [], Q, []⟩ := by
      have h := pyUrlparse_rebuild c0 S' N PP Q true hAlpha hS hLow hN
        hNlb hNrb hNa hPP hPPh hPPq hQh hclean hsemi
      simpa using h
    show normalize_url ⟨(c0 :: S') ++ ':' :: '/' :: '/' ::
        (N ++ (PP ++ '?' :: Q))⟩ =
      some ⟨(c0 :: S') ++ ':' :: '/' :: '/' :: (N ++ (PP ++ '?' :: Q))⟩
    unfold normalize_url
    dsimp only
    rw [hparse]
    dsimp only
    rw [if_pos hQne']
    have h1 : rstripSlash ('?' :: Q) = '?' :: Q := by
      have h2 := rstripSlash_append_right ['?'] Q (by rw [hQr]; exact hQne')
      rw [hQr] at h2
      exact h2
    have hR : rstripSlash ((c0 :: S') ++ (':' :: '/' :: '/' :: N) ++ PP
        ++ '?' :: Q) = (c0 :: S') ++ (':' :: '/' :: '/' :: N) ++ PP
        ++ '?' :: Q := by
      rw [rstripSlash_append_right _ _ (by rw [h1]; simp), h1]
    rw [hR]
    rw [if_pos (by simp)]
    simp [List.append_assoc]
  | false =>
    have hPPr' : rstripSlash PP = PP := hPPr rfl
    have hparse : pyUrlparse ((c0 :: S') ++ ':' :: '/' :: '/' ::
        (N ++ PP)) = some ⟨c0 :: S', N, PP, [], [], []⟩ := by
      have h := pyUrlparse_rebuild c0 S' N PP Q false hAlpha hS hLow hN
        hNlb hNrb hNa hPP hPPh hPPq hQh hclean hsemi
      simpa using h
    show normalize_url ⟨(c0 :: S') ++ ':' :: '/' :: '/' ::
        (N ++ (PP ++ []))⟩ =
      some ⟨(c0 :: S') ++ ':' :: '/' :: '/' :: (N ++ (PP ++ []))⟩
    rw [show N ++ (PP ++ []) = N ++ PP from by rw [List.append_nil]]
    unfold normalize_url
    dsimp only
    rw [hparse]
    dsimp only
    rw [if_neg (show ¬ (([] : List Char) ≠ []) from by simp)]
    rw [List.append_nil]
    obtain ⟨N', cN, hNe⟩ : ∃ N' cN, N = N' ++ [cN] := by
      rcases List.eq_nil_or_concat N with h | ⟨N', cN, h⟩
      · exact absurd h hNne
      · exact ⟨N', cN, by rw [h, List.concat_eq_append]⟩
    have hcN : isSlash cN = false := by
      have hd := hN cN (by rw [hNe]; simp)
      simp only [netlocDelim, decide_eq_false_iff_not] at hd
      simp only [isSlash, decide_eq_false_iff_not]
      exact fun h => hd (Or.inl h)
    have hR : rstripSlash ((c0 :: S') ++ (':' :: '/' :: '/' :: N) ++ PP)
        = (c0 :: S') ++ (':' :: '/' :: '/' :: N) ++ PP := by
      have hBc : (c0 :: S') ++ (':' :: '/' :: '/' :: N)
          = ((c0 :: S') ++ (':' :: '/' :: '/' :: N')) ++ [cN] := by
        rw [hNe]
        simp
      rw [hBc, rstripSlash_append_end _ cN PP hcN, hPPr']
    rw [hR]
    rw [if_pos (by simp)]
    simp [List.append_assoc]

/-- C7 (corrected): `normalize_url` is idempotent on every URL whose
`urlparse` result has a non-empty scheme and a non-empty netloc, whose
query (when present) does not consist entirely of slashes, and whose
effective rebuilt path — the parsed path, slash-stripped when the query
is empty — is left unchanged by the `;params` split on reparse.  The
unrestricted claim is refuted by `c7_counterexample`: stripping the
trailing slash can change what reparses (an all-slash query loses its
`?` on the second pass, and a stripped slash can expose a `;` in the
last path segment). -/
theorem c7_normalize_idempotent (u : String) (P : PyParsed)
    (hP : pyUrlparse u.data = some P)
    (hs : P.scheme ≠ [])
    (hn : P.netloc ≠ [])
    (hq : P.query = [] ∨ rstripSlash P.query ≠ [])
    (hsemi : ';' ∈ pathUsed P →
      pySplitparams (pathUsed P) = (pathUsed P, [])) :
    (normalize_url u).bind normalize_url = normalize_url u := by
  obtain ⟨s, hsplit, hSs, hNs, hQs, hPath⟩ := pyUrlparse_cases u.data P hP
  have inv := pyUrlsplit_inv u.data s hsplit
  obtain ⟨c0, S', hSc⟩ : ∃ c0 S', P.scheme = c0 :: S' := by
    match hm : P.scheme with
    | [] => exact absurd hm hs
    | a :: b => exact ⟨a, b, rfl⟩
  have hn' : s.netloc ≠ [] := by rw [← hNs]; exact hn
  have hSchars : ∀ c ∈ c0 :: S', schemeChar c = true := by
    rw [← hSc, hSs]
    exact inv.scheme_chars
  have hLow : (c0 :: S').map pyLower = c0 :: S' := by
    rw [← hSc, hSs]
    exact inv.scheme_low
  have hAlpha : isAsciiAlpha c0 = true := by
    refine inv.scheme_head c0 S' ?_
    rw [← hSs]
    exact hSc
  have hNd : ∀ c ∈ P.netloc, netlocDelim c = false := by
    rw [hNs]
    exact inv.netloc_delim
  have hNlb : '[' ∉ P.netloc := by rw [hNs]; exact inv.netloc_lb
  have hNrb : ']' ∉ P.netloc := by rw [hNs]; exact inv.netloc_rb
  have hNa : P.netloc.all (fun c => c.toNat ≤ 127) = true := by
    rw [hNs]
    exact inv.netloc_ascii hn'
  have hPsub : ∀ c ∈ P.path, c ∈ s.path := by
    rcases hPath with hpe | hpe
    · rw [hpe]
      exact fun c hc => hc
    · rw [hpe]
      exact pySplitparams_fst_sub s.path
  have hPh : '#' ∉ P.path := fun hc => inv.path_hash (hPsub _ hc)
  have hPq : '?' ∉ P.path := fun hc => inv.path_qm (hPsub _ hc)
  have hPhead : P.path = [] ∨ ∃ t, P.path = '/' :: t := by
    have hshead := inv.path_head hn'
    rcases hPath with hpe | hpe
    · rw [hpe]
      exact hshead
    · rw [hpe]
      rcases hshead with h0 | ⟨t, ht⟩
      · rw [h0]
        left
        decide
      · rw [ht]
        rcases pySplitparams_fst_slash t with ⟨t', ht'⟩
        exact Or.inr ⟨t', ht'⟩
  have hQhash : '#' ∉ P.query := by rw [hQs]; exact inv.query_hash
  have hcleanP : ∀ c ∈ P.netloc ++ P.path ++ P.query,
      ¬ (c = '\t' ∨ c = '\r' ∨ c = '\n') := by
    intro c hc
    refine inv.clean c ?_
    rcases List.mem_append.mp hc with hc | hc
    · rcases List.mem_append.mp hc with hc | hc
      · refine List.mem_append.mpr (Or.inl (List.mem_append.mpr
          (Or.inl ?_)))
        rw [← hNs]
        exact hc
      · exact List.mem_append.mpr (Or.inl (List.mem_append.mpr
          (Or.inr (hPsub c hc))))
    · refine List.mem_append.mpr (Or.inr ?_)
      rw [← hQs]
      exact hc
  obtain ⟨N', cN, hNe⟩ : ∃ N' cN, P.netloc = N' ++ [cN] := by
    rcases List.eq_nil_or_concat P.netloc with h | ⟨N', cN, h⟩
    · exact absurd h hn
    · exact ⟨N', cN, by rw [h, List.concat_eq_append]⟩
  have hcN : isSlash cN = false := by
    have hd := hNd cN (by rw [hNe]; simp)
    simp only [netlocDelim, decide_eq_false_iff_not] at hd
    simp only [isSlash, decide_eq_false_iff_not]
    exact fun h => hd (Or.inl h)
  rcases hq with hQe | hQr'
  · -- empty query: the rstrip reaches into the path
    have hsemi' : ';' ∈ rstripSlash P.path →
        pySplitparams (rstripSlash P.path) = (rstripSlash P.path, []) := by
      have hpu : pathUsed P = rstripSlash P.path := by
        unfold pathUsed
        rw [if_pos hQe]
      rw [← hpu]
      exact hsemi
    have hPP : rstripSlash P.path = [] ∨
        ∃ t, rstripSlash P.path = '/' :: t := by
      rcases hPhead with h0 | ⟨t, ht⟩
      · left
        rw [h0]
        rfl
      · by_cases hrs : rstripSlash P.path = []
        · exact Or.inl hrs
        · right
          rw [ht] at hrs ⊢
          exact rstripSlash_head hrs
    have hclean2 : ∀ c ∈ P.netloc ++ rstripSlash P.path ++ ([] : List Char),
        ¬ (c = '\t' ∨ c = '\r' ∨ c = '\n') := by
      intro c hc
      apply hcleanP
      rcases List.mem_append.mp hc with hc | hc
      · rcases List.mem_append.mp hc with hc | hc
        · exact List.mem_append.mpr (Or.inl (List.mem_append.mpr
            (Or.inl hc)))
        · exact List.mem_append.mpr (Or.inl (List.mem_append.mpr
            (Or.inr (mem_rstripSlash hc))))
      · exact absurd hc (List.not_mem_nil c)
    have hfix : normalize_url ⟨(c0 :: S') ++ ':' :: '/' :: '/' ::
        (P.netloc ++ rstripSlash P.path)⟩ =
        some ⟨(c0 :: S') ++ ':' :: '/' :: '/' ::
          (P.netloc ++ rstripSlash P.path)⟩ := by
      have h := normalize_url_fixpoint c0 S' P.netloc (rstripSlash P.path)
        [] false hAlpha hSchars hLow hNd hNlb hNrb hNa hPP
        (fun hc => hPh (mem_rstripSlash hc))
        (fun hc => hPq (mem_rstripSlash hc))
        (by simp) hclean2 hsemi'
        (fun h => absurd h (by simp)) rfl
        (fun _ => rstripSlash_idem P.path) hn
      simpa using h
    have hnu : normalize_url u = some ⟨(c0 :: S') ++ ':' :: '/' :: '/' ::
        (P.netloc ++ rstripSlash P.path)⟩ := by
      unfold normalize_url
      rw [hP]
      dsimp only
      rw [hQe]
      rw [if_neg (show ¬ (([] : List Char) ≠ []) from by simp)]
      rw [List.append_nil]
      have hR : rstripSlash (P.scheme ++ (':' :: '/' :: '/' :: P.netloc)
          ++ P.path) = P.scheme ++ (':' :: '/' :: '/' :: P.netloc)
          ++ rstripSlash P.path := by
        have hBc : P.scheme ++ (':' :: '/' :: '/' :: P.netloc)
            = (P.scheme ++ (':' :: '/' :: '/' :: N')) ++ [cN] := by
          rw [hNe]
          simp
        rw [hBc, rstripSlash_append_end _ cN _ hcN]
      rw [hR]
      rw [if_pos (show P.scheme ++ (':' :: '/' :: '/' :: P.netloc)
          ++ rstripSlash P.path ≠ [] from by rw [hSc]; simp)]
      rw [hSc]
      simp [List.append_assoc]
    rw [hnu]
    exact hfix
  · -- non-empty query surviving the rstrip
    have hQne0 : P.query ≠ [] := by
      intro h
      rw [h] at hQr'
      exact hQr' rfl
    have hsemi' : ';' ∈ P.path →
        pySplitparams P.path = (P.path, []) := by
      have hpu : pathUsed P = P.path := by
        unfold pathUsed
        rw [if_neg hQne0]
      rw [← hpu]
      exact hsemi
    have hclean2 : ∀ c ∈ P.netloc ++ P.path ++ rstripSlash P.query,
        ¬ (c = '\t' ∨ c = '\r' ∨ c = '\n') := by
      intro c hc
      apply hcleanP
      rcases List.mem_append.mp hc with hc | hc
      · exact List.mem_append.mpr (Or.inl hc)
      · exact List.mem_append.mpr (Or.inr (mem_rstripSlash hc))
    have hfix : normalize_url ⟨(c0 :: S') ++ ':' :: '/' :: '/' ::
        (P.netloc ++ (P.path ++ '?' :: rstripSlash P.query))⟩ =
        some ⟨(c0 :: S') ++ ':' :: '/' :: '/' ::
          (P.netloc ++ (P.path ++ '?' :: rstripSlash P.query))⟩ := by
      have h := normalize_url_fixpoint c0 S' P.netloc P.path
        (rstripSlash P.query) true hAlpha hSchars hLow hNd hNlb hNrb hNa
        hPhead hPh hPq (fun hc => hQhash (mem_rstripSlash hc)) hclean2
        hsemi' (fun _ => hQr') (rstripSlash_idem P.query)
        (fun h => absurd h (by simp)) hn
      simpa using h
    have hnu : normalize_url u = some ⟨(c0 :: S') ++ ':' :: '/' :: '/' ::
        (P.netloc ++ (P.path ++ '?' :: rstripSlash P.query))⟩ := by
      unfold normalize_url
      rw [hP]
      dsimp only
      rw [if_pos hQne0]
      have h1 : rstripSlash ('?' :: P.query)
          = '?' :: rstripSlash P.query :=
        rstripSlash_append_right ['?'] P.query hQr'
      have hR : rstripSlash (P.scheme ++ (':' :: '/' :: '/' :: P.netloc)
          ++ P.path ++ '?' :: P.query)
          = P.scheme ++ (':' :: '/' :: '/' :: P.netloc) ++ P.path
            ++ '?' :: rstripSlash P.query := by
        rw [rstripSlash_append_right _ _ (by rw [h1]; simp), h1]
      rw [hR]
      rw [if_pos (show P.scheme ++ (':' :: '/' :: '/' :: P.netloc)
          ++ P.path ++ '?' :: rstripSlash P.query ≠ [] from by
        rw [hSc]; simp)]
      rw [hSc]
      simp [List.append_assoc]
    rw [hnu]
    exact hfix

/-- Witness for `c7_normalize_idempotent`: at `"http://x.test/docs/"`
all hypotheses hold concretely and normalization is idempotent. -/
theorem c7_normalize_idempotent_witness :
    pyUrlparse ("http://x.test/docs/" : String).data =
      some ⟨"http".data, "x.test".data, "/docs/".data, [], [], []⟩ ∧
    (normalize_url "http://x.test/docs/").bind normalize_url
      = normalize_url "http://x.test/docs/" :=
  ⟨by decide,
    c7_normalize_idempotent "http://x.test/docs/"
      ⟨"http".data, "x.test".data, "/docs/".data, [], [], []⟩
      (by decide) (by decide) (by decide) (by decide) (by decide)⟩

end PageClassification
